import Mathlib

/-!
Shallow embedding of the compoviz Compose-resolution pipeline.

JavaScript strings are modelled as `List Char` (named `JStr`), so that the
string algorithms of the source (split, includes, slice) can be re-traced
segment by segment.  JavaScript dynamic values are modelled by the tagged
union `Value` (null / boolean / number / string / ordered list / ordered
mapping); numbers are modelled as integers, which covers every numeric
literal occurring in the pipeline (NaN/float corner cases do not arise).
Objects are insertion-ordered association lists; JavaScript objects cannot
hold a duplicate key, so lookup is first-match and update replaces the
first matching entry in place (exactly the JS behaviour on unique keys).
-/

set_option maxHeartbeats 1000000

abbrev JStr := List Char

/-- JS truthiness for a value modelled by `Value` (below): null, false, 0 and
the empty string are falsy; arrays and objects are always truthy. -/
inductive Value where
  | vNull
  | vBool (b : Bool)
  | vNum (n : Int)
  | vStr (s : JStr)
  | vArr (items : List Value)
  | vObj (fields : List (JStr × Value))

namespace Value

def truthy : Value → Bool
  | vNull => false
  | vBool b => b
  | vNum n => n != 0
  | vStr s => !s.isEmpty
  | vArr _ => true
  | vObj _ => true

/-- truthiness of a possibly-undefined value (`undefined` is falsy). -/
def truthyOpt : Option Value → Bool
  | none => false
  | some v => v.truthy

/-- typeof v === 'object' (true for null, arrays and objects in JS; the
`!v` half of the guards of the source is checked separately via `truthy`). -/
def isObjType : Value → Bool
  | vNull => true
  | vArr _ => true
  | vObj _ => true
  | _ => false

def isArr : Value → Bool
  | vArr _ => true
  | _ => false

def isObjNotArr : Value → Bool
  | vObj _ => true
  | _ => false

end Value

open Value

/-- First-match lookup in an insertion-ordered object. -/
def objGet (fields : List (JStr × Value)) (k : JStr) : Option Value :=
  match fields with
  | [] => none
  | (k2, v) :: rest => if k2 = k then some v else objGet rest k

/-- `obj[k] = v`: replace the first matching entry in place, else append
(JS keeps the original insertion position of an existing key). -/
def objSet (fields : List (JStr × Value)) (k : JStr) (v : Value) :
    List (JStr × Value) :=
  match fields with
  | [] => [(k, v)]
  | (k2, w) :: rest => if k2 = k then (k2, v) :: rest else (k2, w) :: objSet rest k v

/-- Removal of a key, as by rest-destructuring `const \x7bextends: _, ...rest\x7d`. -/
def objRemove (fields : List (JStr × Value)) (k : JStr) : List (JStr × Value) :=
  fields.filter (fun p => p.1 ≠ k)

/-- Property access `v.k`; `none` models `undefined`.  JS raises a TypeError
when `v` is null — callers of this helper in the model either guard that
case or model the raised TypeError explicitly. -/
def propGet (v : Value) (k : JStr) : Option Value :=
  match v with
  | vObj fields => objGet fields k
  | _ => none

/-- Decimal digits of a natural number, most significant first (the JS
decimal rendering). -/
def natDigits (n : Nat) : JStr :=
  if n < 10 then [Char.ofNat (48 + n)]
  else natDigits (n / 10) ++ [Char.ofNat (48 + n % 10)]
decreasing_by
  have h10 : 10 ≤ n := by omega
  omega

/-- Decimal rendering of an integer, as JS string coercion produces. -/
def intToJStr (n : Int) : JStr :=
  if n < 0 then '-' :: natDigits n.natAbs else natDigits n.natAbs

/-- JS ToString coercion of a value used as a property key or interpolated
into a template literal. -/
def keyString : Value → JStr
  | vNull => ("null").toList
  | vBool true => ("true").toList
  | vBool false => ("false").toList
  | vNum n => intToJStr n
  | vStr s => s
  | vArr _ => ("").toList
  | vObj _ => ("[object Object]").toList

/-- Index-keyed enumeration used by object spread of an array
(`\x7b...arr\x7d` yields keys "0", "1", ...). -/
def enumFrom (i : Nat) : List Value → List (JStr × Value)
  | [] => []
  | v :: rest => (intToJStr (Int.ofNat i), v) :: enumFrom (i + 1) rest

/-- `\x7b...v\x7d`: the entry list produced by object spread (also the list
iterated by `Object.entries`).  A string spreads to one-character strings
keyed by index; other primitives spread to nothing. -/
def toSpread : Value → List (JStr × Value)
  | vObj fields => fields
  | vArr items => enumFrom 0 items
  | vStr s => enumFrom 0 (s.map (fun c => vStr [c]))
  | _ => []

/-- `[...v]` in an array literal: arrays iterate to their items, strings to
their characters (one-character strings).  Other values are not iterable
(JS raises a TypeError there; that corner is unreachable in the pipeline
because the operand has already passed a truthiness/array guard). -/
def spreadToList : Value → List Value
  | vArr items => items
  | vStr s => s.map (fun c => vStr [c])
  | _ => []

mutual

/-- Node count of a value; termination measure for the recursions that walk
into object entries. -/
def valSize : Value → Nat
  | .vArr items => 1 + valSizeList items
  | .vObj fields => 1 + valSizeFields fields
  | _ => 1

def valSizeList : List Value → Nat
  | [] => 0
  | v :: rest => valSize v + valSizeList rest

def valSizeFields : List (JStr × Value) → Nat
  | [] => 0
  | (_, v) :: rest => valSize v + valSizeFields rest

end

theorem valSize_pos (v : Value) : 1 ≤ valSize v := by
  cases v <;> simp [valSize]

theorem valSizeFields_enumFrom (items : List Value) :
    ∀ i, valSizeFields (enumFrom i items) = valSizeList items := by
  induction items with
  | nil => intro i; rfl
  | cons v rest ih => intro i; simp [enumFrom, valSizeFields, valSizeList, ih]

mutual

/-- Structural equality of values (the sameValueZero comparison a JS `Map`
performs on its keys, restricted to the value forms of the model). -/
def beqV : Value → Value → Bool
  | .vNull, .vNull => true
  | .vBool a, .vBool b => a == b
  | .vNum a, .vNum b => a == b
  | .vStr a, .vStr b => a == b
  | .vArr a, .vArr b => beqVList a b
  | .vObj a, .vObj b => beqVFields a b
  | _, _ => false

def beqVList : List Value → List Value → Bool
  | [], [] => true
  | a :: arest, b :: brest => beqV a b && beqVList arest brest
  | _, _ => false

def beqVFields : List (JStr × Value) → List (JStr × Value) → Bool
  | [], [] => true
  | (k1, v1) :: arest, (k2, v2) :: brest =>
      k1 == k2 && beqV v1 v2 && beqVFields arest brest
  | _, _ => false

end

instance {α β : Type} [DecidableEq α] [DecidableEq β] : DecidableEq (Except α β) :=
  fun x y =>
    match x, y with
    | .error a, .error b => decidable_of_iff (a = b) (by simp)
    | .ok a, .ok b => decidable_of_iff (a = b) (by simp)
    | .error _, .ok _ => .isFalse (by simp)
    | .ok _, .error _ => .isFalse (by simp)

/-! ## ExtendsResolver (src/unnamed/part_002) -/

/-- The field-specific merge table `MERGE_STRATEGIES`: keys listed as
`'concat'`. -/
def concatFields : List JStr :=
  [("ports").toList, ("expose").toList, ("external_links").toList,
   ("dns").toList, ("dns_search").toList, ("tmpfs").toList, ("volumes").toList]

/-- Keys listed as `'merge'` in `MERGE_STRATEGIES`. -/
def mergeFields : List JStr :=
  [("environment").toList, ("labels").toList, ("build").toList,
   ("deploy").toList, ("logging").toList, ("depends_on").toList]

inductive MergeStrat where
  | concat
  | merge
  | override
deriving DecidableEq

/-- `MERGE_STRATEGIES[key] || 'override'`: keys explicitly listed as
`'override'` and unlisted keys both resolve to the override strategy. -/
def mergeStrategy (k : JStr) : MergeStrat :=
  if k ∈ concatFields then .concat
  else if k ∈ mergeFields then .merge
  else .override

/-- `normalizeDependsOn`: array form becomes the mapping-of-condition form,
object form passes through, falsy becomes `\x7b\x7d`.  `Object.fromEntries`
keys are the JS string coercion of the array entries. -/
def normalizeDependsOn (v : Value) : Value :=
  if !v.truthy then .vObj []
  else
    match v with
    | .vArr items =>
        .vObj (items.map (fun svc =>
          (keyString svc,
           Value.vObj [(("condition").toList, Value.vStr ("service_started").toList)])))
    | w => w

mutual

/-- `deepMerge(base, override)` of the extends resolver.  The `typeof`
guards admit arrays (JS `typeof` of an array is `'object'`), and the spread
`\x7b...base\x7d` of an array produces an index-keyed object, exactly as
`toSpread` renders it. -/
def deepMerge (base override : Value) : Value :=
  if !(base.truthy && base.isObjType) then override
  else
    match override with
    | .vArr oitems => .vObj (deepMergeGo (enumFrom 0 oitems) (toSpread base))
    | .vObj ofields => .vObj (deepMergeGo ofields (toSpread base))
    | _ => base
termination_by (valSize override, 0)
decreasing_by
  all_goals simp only [Prod.lex_iff]
  all_goals simp [valSize, valSizeFields, valSizeFields_enumFrom]

/-- The `for (const [key, value] of Object.entries(override))` loop of
`deepMerge`, with `result` threaded through. -/
def deepMergeGo (entries result : List (JStr × Value)) : List (JStr × Value) :=
  match entries with
  | [] => result
  | (k, v) :: rest =>
      match v with
      | .vObj vfields =>
          deepMergeGo rest
            (objSet result k (deepMerge ((objGet result k).getD .vNull) (.vObj vfields)))
      | w => deepMergeGo rest (objSet result k w)
termination_by (valSizeFields entries, 1)
decreasing_by
  all_goals simp only [Prod.lex_iff]
  all_goals simp [valSizeFields, valSize]
  all_goals
    first
    | omega
    | (rename_i w
       have hw := valSize_pos w
       omega)

end

def dependsOnKey : JStr := ("depends_on").toList

def extendsKey : JStr := ("extends").toList

/-- `[...(result[key] || []), ...(Array.isArray(value) ? value : [value])]`. -/
def concatValue (cur : Option Value) (v : Value) : Value :=
  .vArr ((match cur with
          | some w => if w.truthy then spreadToList w else []
          | none => []) ++
         (match v with
          | .vArr items => items
          | w => [w]))

/-- `deepMerge(result[key] || {}, value)`. -/
def mergeValue (cur : Option Value) (v : Value) : Value :=
  deepMerge (match cur with
             | some w => if w.truthy then w else .vObj []
             | none => .vObj []) v

/-- One iteration step of the merge loop of `mergeServiceConfigs`:
dispatch on the strategy of the key. -/
def mergeSvcGo (entries result : List (JStr × Value)) : List (JStr × Value) :=
  match entries with
  | [] => result
  | (k, v) :: rest =>
      match mergeStrategy k with
      | .concat => mergeSvcGo rest (objSet result k (concatValue (objGet result k) v))
      | .merge => mergeSvcGo rest (objSet result k (mergeValue (objGet result k) v))
      | .override => mergeSvcGo rest (objSet result k v)

/-- `mergeServiceConfigs(base, override)`: normalize `depends_on` on both
sides when (truthily) present, then merge the override entries onto a copy
of the base with the field-specific strategies. -/
def mergeServiceConfigs (base override : Value) : Value :=
  let nb0 := toSpread base
  let bd := propGet base dependsOnKey
  let nb := if truthyOpt bd then objSet nb0 dependsOnKey (normalizeDependsOn (bd.getD .vNull)) else nb0
  let no0 := toSpread override
  let od := propGet override dependsOnKey
  let no := if truthyOpt od then objSet no0 dependsOnKey (normalizeDependsOn (od.getD .vNull)) else no0
  .vObj (mergeSvcGo no nb)

/-- Rendering of `Array.from(set).join(sep)`. -/
def joinSepStr (sep : JStr) : List JStr → JStr
  | [] => []
  | [s] => s
  | s :: rest => s ++ sep ++ joinSepStr sep rest

def joinArrow (parts : List JStr) : JStr := joinSepStr ((" → ").toList) parts

/-- Number of service names not yet visited; termination measure of
`resolveServiceExtends`. -/
def unvisitedCount (allServices : List (JStr × Value)) (visited : List JStr) : Nat :=
  ((allServices.map Prod.fst).filter (fun k => decide (k ∉ visited))).length

theorem objGet_mem_keys {fields : List (JStr × Value)} {k : JStr} {v : Value}
    (h : objGet fields k = some v) : k ∈ fields.map Prod.fst := by
  induction fields with
  | nil => simp [objGet] at h
  | cons p rest ih =>
      obtain ⟨k2, w⟩ := p
      by_cases hk : k2 = k
      · subst hk
        simp only [List.map_cons]
        exact List.mem_cons_self _ _
      · simp only [objGet, if_neg hk] at h
        simp only [List.map_cons, List.mem_cons]
        exact Or.inr (ih h)

theorem filter_length_mono (keys : List JStr) (p q : JStr → Bool)
    (h : ∀ x, p x = true → q x = true) :
    (keys.filter p).length ≤ (keys.filter q).length := by
  induction keys with
  | nil => simp
  | cons a rest ih =>
      by_cases hp : p a = true
      · simp [List.filter, hp, h a hp]; omega
      · by_cases hq : q a = true <;>
          simp [List.filter, hp, hq, Bool.eq_false_iff] at ih ⊢ <;> omega

theorem unvisitedCount_snoc_lt {allServices : List (JStr × Value)}
    {visited : List JStr} {k : JStr}
    (hk : k ∈ allServices.map Prod.fst) (hv : k ∉ visited) :
    unvisitedCount allServices (visited ++ [k]) < unvisitedCount allServices visited := by
  unfold unvisitedCount
  revert hk
  induction allServices.map Prod.fst with
  | nil => intro h; simp at h
  | cons a rest ih =>
      intro hmem
      rw [List.filter_cons, List.filter_cons]
      by_cases ha : a = k
      · subst ha
        have h1 : (decide (a ∉ visited ++ [a])) = false := by simp
        have h2 : (decide (a ∉ visited)) = true := by simpa using hv
        rw [h1, h2]
        simp only [Bool.false_eq_true, if_false, if_true, List.length_cons]
        have hle := filter_length_mono rest
          (fun x => decide (x ∉ visited ++ [a])) (fun x => decide (x ∉ visited))
          (by intro x hx; simp at hx ⊢; exact hx.1)
        omega
      · have hmem2 : k ∈ rest := by
          rcases List.mem_cons.mp hmem with h | h
          · exact absurd h.symm ha
          · exact h
        have step := ih hmem2
        by_cases hav : a ∈ visited
        · have h1 : (decide (a ∉ visited ++ [k])) = false := by simp [hav]
          have h2 : (decide (a ∉ visited)) = false := by simp [hav]
          rw [h1, h2]
          simpa using step
        · have h1 : (decide (a ∉ visited ++ [k])) = true := by simp [hav, ha]
          have h2 : (decide (a ∉ visited)) = true := by simp [hav]
          rw [h1, h2]
          simp only [if_true, List.length_cons]
          omega

/-- `resolveServiceExtends(service, allServices, visited)`: resolve the
inheritance chain of one service.  A null service models the TypeError JS
raises on the property access `service.extends`. -/
def resolveServiceExtends (allServices : List (JStr × Value)) (service : Value)
    (visited : List JStr) : Except JStr Value :=
  match service with
  | .vNull => .error ("Cannot read properties of null (reading 'extends')").toList
  | _ =>
    let ext := propGet service extendsKey
    if !truthyOpt ext then .ok service
    else
      let nameVal : Option Value :=
        match ext.getD .vNull with
        | .vStr s => some (.vStr s)
        | w => propGet w ("service").toList
      let nameKey := match nameVal with
        | some w => keyString w
        | none => ("undefined").toList
      if hcyc : nameKey ∈ visited then
        .error (("Circular extends detected: ").toList ++ joinArrow visited ++
          (" → ").toList ++ nameKey)
      else
        match hserv : objGet allServices nameKey with
        | none =>
            .error (("Service \"").toList ++ nameKey ++
              ("\" referenced in extends not found").toList)
        | some extService =>
            if !extService.truthy then
              .error (("Service \"").toList ++ nameKey ++
                ("\" referenced in extends not found").toList)
            else
              match resolveServiceExtends allServices extService (visited ++ [nameKey]) with
              | .error e => .error e
              | .ok resolvedBase =>
                  .ok (mergeServiceConfigs resolvedBase
                    (.vObj (objRemove (toSpread service) extendsKey)))
termination_by unvisitedCount allServices visited
decreasing_by
  exact unvisitedCount_snoc_lt (objGet_mem_keys hserv) hcyc

/-- The loop of `resolveAllExtends` over the entries of `compose.services`,
wrapping a failure with the name of the service being resolved. -/
def resolveAllGo (allServices : List (JStr × Value)) :
    List (JStr × Value) → List (JStr × Value) → Except JStr (List (JStr × Value))
  | [], acc => .ok acc
  | (name, svc) :: rest, acc =>
      match resolveServiceExtends allServices svc [] with
      | .ok r => resolveAllGo allServices rest (objSet acc name r)
      | .error e =>
          .error (("Error resolving extends for service \"").toList ++ name ++
            ("\": ").toList ++ e)

/-- `resolveAllExtends(compose)`: resolve every service of the document. -/
def resolveAllExtends (compose : Value) : Except JStr Value :=
  if !truthyOpt (propGet compose ("services").toList) then .ok compose
  else
    let services := toSpread ((propGet compose ("services").toList).getD .vNull)
    match resolveAllGo services services [] with
    | .error e => .error e
    | .ok resolved =>
        .ok (.vObj (objSet (toSpread compose) ("services").toList (.vObj resolved)))

/-! ## PathResolver (src/src/utils/pathResolver.js) -/

/-- Prepend a character to the first part of a split result (used to build
`String.prototype.split` results front to back). -/
def consHead (c : Char) : List JStr → List JStr
  | [] => [[c]]
  | h :: t => (c :: h) :: t

/-- `str.split(a)` for a one-character separator. -/
def splitOn1 (a : Char) : JStr → List JStr
  | [] => [[]]
  | c :: rest => if c = a then [] :: splitOn1 a rest else consHead c (splitOn1 a rest)

/-- `str.split(ab)` for a two-character separator with distinct characters
(the separators of the source: `:?`, `:-`).  Matching is left-to-right and
non-overlapping, as in JS. -/
def splitOn2 (a b : Char) : JStr → List JStr
  | [] => [[]]
  | [c] => [[c]]
  | c :: d :: rest =>
      if c = a ∧ d = b then [] :: splitOn2 a b rest
      else consHead c (splitOn2 a b (d :: rest))

def joinSep (a : Char) : List JStr → JStr
  | [] => []
  | [s] => s
  | s :: rest => s ++ a :: joinSep a rest

def dotSeg : JStr := (".").toList

def dotDotSeg : JStr := ("..").toList

/-- The `for (const segment of segments)` loop of `normalizePath`, with the
output stack kept head-first (its head is the most recently pushed
segment, so `pop` is `tail`, which is also a no-op on the empty stack,
matching the guarded pop of the source). -/
def normSegsGo (acc : List JStr) : List JStr → List JStr
  | [] => acc.reverse
  | seg :: rest =>
      if seg = dotSeg then normSegsGo acc rest
      else if seg = dotDotSeg then normSegsGo acc.tail rest
      else normSegsGo (seg :: acc) rest

/-- `normalizePath(path)`: split on `/`, drop empty and `.` segments, pop on
`..`, rejoin. -/
def normalizePath (p : JStr) : JStr :=
  if p.isEmpty then []
  else joinSep '/' (normSegsGo [] ((splitOn1 '/' p).filter (fun s => !s.isEmpty)))

/-- `dirname(path)`: the portion of the normalized path before its last
slash; empty when there is none. -/
def dirname (p : JStr) : JStr :=
  if p.isEmpty then []
  else
    let n := normalizePath p
    (((n.reverse).dropWhile (fun c => c ≠ '/')).drop 1).reverse

/-- `joinPath(basePath, relativePath)`: strip one leading `./` from the
relative part and normalize the concatenation. -/
def joinPath (base rel : JStr) : JStr :=
  if base.isEmpty then normalizePath rel
  else if rel.isEmpty then normalizePath base
  else
    let cleanRel := if ['.', '/'] <+: rel then rel.drop 2 else rel
    normalizePath (base ++ '/' :: cleanRel)

/-- `resolvePath(currentFile, targetPath)`. -/
def resolvePath (currentFile targetPath : JStr) : JStr :=
  joinPath (dirname currentFile) targetPath

theorem splitOn1_ne_nil (a : Char) (l : JStr) : splitOn1 a l ≠ [] := by
  cases l with
  | nil => simp [splitOn1]
  | cons c rest =>
      unfold splitOn1
      split
      · simp
      · unfold consHead
        split <;> simp

theorem mem_splitOn1_not_sep (a : Char) (l : JStr) :
    ∀ s ∈ splitOn1 a l, a ∉ s := by
  induction l with
  | nil => intro s hs; simp [splitOn1] at hs; simp [hs]
  | cons c rest ih =>
      intro s hs
      unfold splitOn1 at hs
      by_cases hc : c = a
      · rw [if_pos hc] at hs
        rcases List.mem_cons.mp hs with h | h
        · simp [h]
        · exact ih s h
      · rw [if_neg hc] at hs
        rcases hsplit : splitOn1 a rest with _ | ⟨h0, t⟩
        · exact absurd hsplit (splitOn1_ne_nil a rest)
        · rw [hsplit] at hs
          unfold consHead at hs
          rcases List.mem_cons.mp hs with h | h
          · subst h
            intro hmem
            rcases List.mem_cons.mp hmem with h | h
            · exact hc h.symm
            · exact ih h0 (by rw [hsplit]; exact List.mem_cons_self _ _) h
          · exact ih s (by rw [hsplit]; exact List.mem_cons.mpr (Or.inr h))

theorem splitOn1_no_sep {a : Char} {s : JStr} (h : a ∉ s) :
    splitOn1 a s = [s] := by
  induction s with
  | nil => rfl
  | cons c rest ih =>
      have hc : c ≠ a := fun hh => h (by simp [hh])
      have hrest : a ∉ rest := fun hh => h (List.mem_cons.mpr (Or.inr hh))
      simp only [splitOn1]
      rw [if_neg hc, ih hrest]
      simp [consHead]

theorem splitOn1_append_sep {a : Char} {s t : JStr} (h : a ∉ s) :
    splitOn1 a (s ++ a :: t) = s :: splitOn1 a t := by
  induction s with
  | nil => simp [splitOn1]
  | cons c rest ih =>
      have hc : c ≠ a := fun hh => h (by simp [hh])
      have hrest : a ∉ rest := fun hh => h (List.mem_cons.mpr (Or.inr hh))
      simp only [List.cons_append]
      simp only [splitOn1]
      rw [if_neg hc, ih hrest]
      simp [consHead]

theorem splitOn1_joinSep {a : Char} {segs : List JStr}
    (hne : segs ≠ []) (hsep : ∀ s ∈ segs, a ∉ s) :
    splitOn1 a (joinSep a segs) = segs := by
  induction segs with
  | nil => exact absurd rfl hne
  | cons s rest ih =>
      cases rest with
      | nil =>
          simp only [joinSep]
          exact splitOn1_no_sep (hsep s (List.mem_cons_self _ _))
      | cons s2 rest2 =>
          have hjoin : joinSep a (s :: s2 :: rest2) = s ++ a :: joinSep a (s2 :: rest2) := rfl
          rw [hjoin, splitOn1_append_sep (hsep s (List.mem_cons_self _ _))]
          rw [ih (by simp) (fun x hx => hsep x (List.mem_cons.mpr (Or.inr hx)))]

theorem normSegsGo_plain {l : List JStr} :
    ∀ acc, (∀ s ∈ l, s ≠ dotSeg ∧ s ≠ dotDotSeg) →
    normSegsGo acc l = acc.reverse ++ l := by
  induction l with
  | nil => intro acc _; simp [normSegsGo]
  | cons seg rest ih =>
      intro acc hl
      obtain ⟨h1, h2⟩ := hl seg (List.mem_cons_self _ _)
      unfold normSegsGo
      rw [if_neg h1, if_neg h2]
      rw [ih (seg :: acc) (fun x hx => hl x (List.mem_cons.mpr (Or.inr hx)))]
      simp

/-- Every segment emitted by the normalization loop is a nonempty,
slash-free, non-dot segment (provided the stack already satisfies this). -/
theorem normSegsGo_sound {l : List JStr} :
    ∀ acc, (∀ s ∈ acc, s ≠ [] ∧ '/' ∉ s ∧ s ≠ dotSeg ∧ s ≠ dotDotSeg) →
    (∀ s ∈ l, s ≠ [] ∧ '/' ∉ s) →
    ∀ s ∈ normSegsGo acc l, s ≠ [] ∧ '/' ∉ s ∧ s ≠ dotSeg ∧ s ≠ dotDotSeg := by
  induction l with
  | nil =>
      intro acc hacc _ s hs
      simp only [normSegsGo] at hs
      exact hacc s (List.mem_reverse.mp hs)
  | cons seg rest ih =>
      intro acc hacc hl
      unfold normSegsGo
      by_cases hdot : seg = dotSeg
      · rw [if_pos hdot]
        exact ih acc hacc (fun x hx => hl x (List.mem_cons.mpr (Or.inr hx)))
      · rw [if_neg hdot]
        by_cases hdd : seg = dotDotSeg
        · rw [if_pos hdd]
          exact ih acc.tail
            (fun x hx => hacc x (List.mem_of_mem_tail hx))
            (fun x hx => hl x (List.mem_cons.mpr (Or.inr hx)))
        · rw [if_neg hdd]
          apply ih (seg :: acc)
          · intro x hx
            rcases List.mem_cons.mp hx with h | h
            · subst h
              obtain ⟨g1, g2⟩ := hl x (List.mem_cons_self _ _)
              exact ⟨g1, g2, hdot, hdd⟩
            · exact hacc x h
          · exact fun x hx => hl x (List.mem_cons.mpr (Or.inr hx))

theorem joinSep_ne_nil {a : Char} {segs : List JStr}
    (hne : segs ≠ []) (h1 : ∀ s ∈ segs, s ≠ []) :
    joinSep a segs ≠ [] := by
  cases segs with
  | nil => exact absurd rfl hne
  | cons s rest =>
      cases rest with
      | nil => exact h1 s (List.mem_cons_self _ _)
      | cons s2 rest2 =>
          have hs := h1 s (List.mem_cons_self _ _)
          simp only [joinSep]
          intro hcontra
          rcases List.append_eq_nil.mp hcontra with ⟨hs1, _⟩
          exact hs hs1

/-- Normalization is idempotent: the output of `normalizePath` consists of
nonempty slash-free non-dot segments, which a second pass leaves alone. -/
theorem normalizePath_idem (p : JStr) :
    normalizePath (normalizePath p) = normalizePath p := by
  by_cases hp : p.isEmpty
  · simp [normalizePath, hp]
  · have hnp : normalizePath p =
        joinSep '/' (normSegsGo [] ((splitOn1 '/' p).filter (fun s => !s.isEmpty))) := by
      simp [normalizePath, hp]
    set segs := normSegsGo [] ((splitOn1 '/' p).filter (fun s => !s.isEmpty)) with hsegs
    have hsound : ∀ s ∈ segs, s ≠ [] ∧ '/' ∉ s ∧ s ≠ dotSeg ∧ s ≠ dotDotSeg := by
      rw [hsegs]
      apply normSegsGo_sound []
      · intro s hs; simp at hs
      · intro s hs
        rw [List.mem_filter] at hs
        refine ⟨by simpa using hs.2, ?_⟩
        exact mem_splitOn1_not_sep '/' p s hs.1
    by_cases hsegnil : segs = []
    · rw [hnp, hsegnil]
      simp [joinSep, normalizePath]
    · have hjne : joinSep '/' segs ≠ [] :=
        joinSep_ne_nil hsegnil (fun s hs => (hsound s hs).1)
      rw [hnp]
      unfold normalizePath
      rw [if_neg (by simpa using hjne)]
      rw [splitOn1_joinSep hsegnil (fun s hs => (hsound s hs).2.1)]
      have hfilter : segs.filter (fun s => !s.isEmpty) = segs := by
        apply List.filter_eq_self.mpr
        intro s hs
        simpa using (hsound s hs).1
      rw [hfilter]
      rw [normSegsGo_plain [] (fun s hs => ⟨(hsound s hs).2.2.1, (hsound s hs).2.2.2⟩)]
      simp

/-- `joinPath` always returns a normalized path. -/
theorem joinPath_normalized (base rel : JStr) :
    normalizePath (joinPath base rel) = joinPath base rel := by
  unfold joinPath
  split
  · exact normalizePath_idem rel
  · split
    · exact normalizePath_idem base
    · exact normalizePath_idem _

/-- `resolvePath` always returns a normalized path. -/
theorem resolvePath_normalized (cur target : JStr) :
    normalizePath (resolvePath cur target) = resolvePath cur target :=
  joinPath_normalized (dirname cur) target

/-! ## IncludeResolver (src/unnamed/part_005) -/

def includeKey : JStr := ("include").toList

def servicesKey : JStr := ("services").toList

/-- The reserved collection keys merged by shallow key union. -/
def reservedKeys : List JStr :=
  [("services").toList, ("networks").toList, ("volumes").toList,
   ("secrets").toList, ("configs").toList]

/-- `\x7b...a, ...b\x7d`: entries of `b` update (in place) or append to the
entries of `a`. -/
def objUnion (u w : List (JStr × Value)) : List (JStr × Value) :=
  w.foldl (fun acc p => objSet acc p.1 p.2) u

/-- The merge loop of `mergeComposeFiles` over the override entries. -/
def mergeComposeGo (entries result : List (JStr × Value)) : List (JStr × Value) :=
  match entries with
  | [] => result
  | (k, v) :: rest =>
      if k = ("name").toList then mergeComposeGo rest (objSet result k v)
      else if k ∈ reservedKeys then
        let baseEntries := match objGet result k with
          | some w => if w.truthy then toSpread w else []
          | none => []
        let ovEntries := if v.truthy then toSpread v else []
        mergeComposeGo rest (objSet result k (.vObj (objUnion baseEntries ovEntries)))
      else mergeComposeGo rest (objSet result k v)

/-- `mergeComposeFiles(base, override)`: override-wins shallow merge, with a
key union for the reserved collections. -/
def mergeComposeFiles (base override : Value) : Value :=
  if !override.truthy then (if base.truthy then base else .vObj [])
  else if !base.truthy then override
  else .vObj (mergeComposeGo (toSpread override) (toSpread base))

mutual

/-- `resolveIncludes(compose, currentFile, fileMap, visited)`.  The file map
holds already-parsed documents: `yaml.load` of the stored text is an
external collaborator (js-yaml), so the model maps each path directly to
the parsed `Value` it would produce; a missing key models a missing file.
An include entry whose path is not a string is skipped with a console
warning in the source and is skipped here as well. -/
def resolveIncludes (fileMap : List (JStr × Value)) (compose : Value)
    (currentFile : JStr) (visited : List JStr) : Except JStr Value :=
  if !(compose.truthy && truthyOpt (propGet compose includeKey)) then .ok compose
  else
    let ncur := normalizePath currentFile
    if ncur ∈ visited then
      .error (("Circular include detected: ").toList ++ ncur ++
        (" already in chain").toList)
    else
      includesLoop fileMap
        (match (propGet compose includeKey).getD .vNull with
         | .vArr l => l
         | w => [w])
        (visited ++ [ncur]) currentFile
        (.vObj (objRemove (toSpread compose) includeKey))
termination_by (unvisitedCount fileMap (visited ++ [normalizePath currentFile]), 1, 0)

/-- The `for (const includeSpec of includes)` loop of `resolveIncludes`. -/
def includesLoop (fileMap : List (JStr × Value)) (entries : List Value)
    (nv : List JStr) (currentFile : JStr) (merged : Value) : Except JStr Value :=
  match entries with
  | [] => .ok merged
  | e :: rest =>
      let ipath : Option JStr :=
        match e with
        | .vStr s => some s
        | w =>
            match propGet w ("path").toList with
            | some (.vStr s) => some s
            | _ => none
      match ipath with
      | none => includesLoop fileMap rest nv currentFile merged
      | some p =>
          if p.isEmpty then includesLoop fileMap rest nv currentFile merged
          else
            let inc := resolvePath currentFile p
            if hcyc2 : inc ∈ nv then
              .error (("Circular include detected: ").toList ++ joinArrow nv ++
                (" → ").toList ++ inc)
            else
              match hcont : objGet fileMap inc with
              | none =>
                  .error (("Include file not found: \"").toList ++ p ++
                    ("\"\nResolved to: \"").toList ++ inc ++
                    ("\"\nAvailable files: ").toList ++
                    joinSepStr ((", ").toList) (fileMap.map Prod.fst))
              | some content =>
                  if !content.truthy then
                    .error (("Include file not found: \"").toList ++ p ++
                      ("\"\nResolved to: \"").toList ++ inc ++
                      ("\"\nAvailable files: ").toList ++
                      joinSepStr ((", ").toList) (fileMap.map Prod.fst))
                  else
                    match resolveIncludes fileMap content inc nv with
                    | .error err => .error err
                    | .ok ri =>
                        includesLoop fileMap rest nv currentFile
                          (mergeComposeFiles ri merged)
termination_by (unvisitedCount fileMap nv, 0, entries.length)
decreasing_by
  all_goals
    first
    | decreasing_tactic
    | (apply Prod.Lex.left
       rw [resolvePath_normalized]
       exact unvisitedCount_snoc_lt (objGet_mem_keys hcont) hcyc2)

end

/-! ## ProfileFilter (src/src/utils/profileFilter.js) -/

def profilesKey : JStr := ("profiles").toList

/-- `getServiceProfiles(service)`: single string or array-of-strings form,
non-strings filtered out, falsy `profiles` yields nothing. -/
def getServiceProfiles (service : Value) : List JStr :=
  if !(service.truthy && truthyOpt (propGet service profilesKey)) then []
  else
    match (propGet service profilesKey).getD .vNull with
    | .vStr s => [s]
    | .vArr items =>
        items.filterMap (fun v => match v with | .vStr s => some s | _ => none)
    | _ => []

/-- Insertion into a JS `Set` (insertion-ordered, deduplicating). -/
def pushUnique (acc : List JStr) (x : JStr) : List JStr :=
  if x ∈ acc then acc else acc ++ [x]

/-- Lexicographic UTF-16 comparison, the default `Array.prototype.sort`
comparator on strings. -/
def jstrLtb : JStr → JStr → Bool
  | [], [] => false
  | [], _ :: _ => true
  | _ :: _, [] => false
  | a :: arest, b :: brest =>
      if a.val < b.val then true
      else if b.val < a.val then false
      else jstrLtb arest brest

def insertSorted (x : JStr) : List JStr → List JStr
  | [] => [x]
  | y :: rest => if jstrLtb x y then x :: y :: rest else y :: insertSorted x rest

/-- `arr.sort()` on distinct strings (the sort algorithm itself is
irrelevant because the input is deduplicated). -/
def sortJStr (l : List JStr) : List JStr := l.foldr insertSorted []

/-- `listAllProfiles(compose)`: every profile of every service, deduplicated
in first-appearance order, then sorted. -/
def listAllProfiles (compose : Value) : List JStr :=
  if !(compose.truthy && truthyOpt (propGet compose servicesKey)) then []
  else
    sortJStr
      (((toSpread ((propGet compose servicesKey).getD .vNull)).map Prod.snd).foldl
        (fun acc svc => (getServiceProfiles svc).foldl pushUnique acc) [])

def bumpCount (counts : List (JStr × Nat)) (k : JStr) : List (JStr × Nat) :=
  match counts with
  | [] => [(k, 1)]
  | (k2, n) :: rest => if k2 = k then (k2, n + 1) :: rest else (k2, n) :: bumpCount rest k

/-- `getProfileCounts(compose)`. -/
def getProfileCounts (compose : Value) : List (JStr × Nat) :=
  if !(compose.truthy && truthyOpt (propGet compose servicesKey)) then []
  else
    ((toSpread ((propGet compose servicesKey).getD .vNull)).map Prod.snd).foldl
      (fun counts svc => (getServiceProfiles svc).foldl bumpCount counts) []

/-- `matchesProfiles(service, activeProfiles)`. -/
def matchesProfiles (service : Value) (activeProfiles : List JStr) : Bool :=
  let sp := getServiceProfiles service
  if sp.isEmpty then true
  else sp.any (fun pr => pr ∈ activeProfiles)

/-- `filterByProfiles(compose, activeProfiles)`. -/
def filterByProfiles (compose : Value) (activeProfiles : List JStr) : Value :=
  if !compose.truthy then compose
  else if !truthyOpt (propGet compose servicesKey) then compose
  else
    let filtered :=
      (toSpread ((propGet compose servicesKey).getD .vNull)).foldl
        (fun acc p => if matchesProfiles p.2 activeProfiles then objSet acc p.1 p.2 else acc) []
    .vObj (objSet (toSpread compose) servicesKey (.vObj filtered))

/-! ## VariableInterpolator (src/src/utils/variableInterpolator.js) -/

/-- A token of the left-to-right scan that the replace with
`VARIABLE_REGEX = (?<!\x5c$)\x5c$\x5c\x7b([^\x7d]+)\x7d` performs: either a
literal character or a matched reference with its inner expression. -/
inductive Tok where
  | lit (c : Char)
  | ref (expr : JStr)

/-- The regex scan: a match needs a `$` not preceded by a `$`, a `\x7b`, a
nonempty run of non-`\x7d` characters and a closing `\x7d`; on failure the
scan advances a single position, as a regex engine does. -/
theorem length_dropWhile_le (p : Char → Bool) (l : JStr) :
    (l.dropWhile p).length ≤ l.length := by
  induction l with
  | nil => simp
  | cons c rest ih =>
      rw [List.dropWhile_cons]
      split
      · simp only [List.length_cons]; omega
      · simp

def scanVars (prev : Option Char) (l : JStr) : List Tok :=
  match l with
  | [] => []
  | '$' :: '{' :: rest2 =>
      if prev = some '$' then .lit '$' :: scanVars (some '$') ('{' :: rest2)
      else
        match hrem : rest2.dropWhile (fun c => c ≠ '}') with
        | '}' :: rest3 =>
            let inner := rest2.takeWhile (fun c => c ≠ '}')
            if inner.isEmpty then .lit '$' :: scanVars (some '$') ('{' :: rest2)
            else .ref inner :: scanVars (some '}') rest3
        | _ => .lit '$' :: scanVars (some '$') ('{' :: rest2)
  | '$' :: rest => .lit '$' :: scanVars (some '$') rest
  | c :: rest => .lit c :: scanVars (some c) rest
termination_by l.length
decreasing_by
  all_goals simp only [List.length_cons]
  all_goals
    first
    | omega
    | (have hlen := length_dropWhile_le (fun c => decide (c ≠ '}')) rest2
       rw [hrem] at hlen
       simp only [List.length_cons] at hlen
       omega)

/-- The `\x00ESCAPED_DOLLAR\x00` placeholder of `interpolateString`. -/
def escapedDollar : JStr := ("\x00ESCAPED_DOLLAR\x00").toList

/-- The pre-pass `str.replace(/\x5c$\x5c$/g, placeholder)`: each
non-overlapping `$$` pair becomes the placeholder. -/
def preprocessDollars : JStr → JStr
  | '$' :: '$' :: rest => escapedDollar ++ preprocessDollars rest
  | c :: rest => c :: preprocessDollars rest
  | [] => []

/-- The post-pass restoring each placeholder occurrence to a single `$`. -/
def restoreDollars (l : JStr) : JStr :=
  if h : escapedDollar <+: l then '$' :: restoreDollars (l.drop escapedDollar.length)
  else
    match l with
    | [] => []
    | c :: rest => c :: restoreDollars rest
termination_by l.length
decreasing_by
  · have hlen := h.length_le
    have hgt : 0 < escapedDollar.length := by decide
    simp only [List.length_drop]
    omega
  · simp

/-- `expression.split(/[:-?]/)[0]`: the regex class is the character range
`:` (0x3A) through `?` (0x3F), i.e. `:`, `;`, `<`, `=`, `>`, `?` — the
dash forms a range and is not itself a separator. -/
def varNameOf (expr : JStr) : JStr :=
  expr.takeWhile (fun c => !(c = ':' || c = ';' || c = '<' || c = '=' || c = '>' || c = '?'))

/-- `substituteVariable(match, expression, env)`: classify the operator in
priority order `:?`, plain `?` (without any `-`), `:-`, bare `-`, then
evaluate.  A thrown required-variable error is the `.error` case. -/
def substituteVariable (expression : JStr) (env : List (JStr × JStr)) :
    Except JStr JStr :=
  let cls : JStr × Option JStr × Option JStr × Bool × Bool :=
    if ([':', '?'] : JStr) <:+: expression then
      match splitOn2 ':' '?' expression with
      | varName :: rest => (varName, none, rest.head?, false, true)
      | [] => (expression, none, none, false, true)
    else if (['?'] : JStr) <:+: expression ∧ ¬ (([':', '-'] : JStr) <:+: expression) ∧
        ¬ ((['-'] : JStr) <:+: expression) then
      match splitOn1 '?' expression with
      | varName :: rest => (varName, none, rest.head?, true, false)
      | [] => (expression, none, none, true, false)
    else if ([':', '-'] : JStr) <:+: expression then
      match splitOn2 ':' '-' expression with
      | varName :: rest => (varName, rest.head?, none, false, true)
      | [] => (expression, none, none, false, true)
    else if (['-'] : JStr) <:+: expression then
      match splitOn1 '-' expression with
      | varName :: rest => (varName, rest.head?, none, true, false)
      | [] => (expression, none, none, true, false)
    else (expression, none, none, false, false)
  match cls with
  | (varName, defaultValue, errorMessage, requireSet, requireNonEmpty) =>
    let value := List.lookup varName env
    let isSet := value.isSome
    let isEmpty := !isSet || value == some []
    let errTruthy := match errorMessage with
      | some m => !m.isEmpty
      | none => false
    if errTruthy && requireNonEmpty && isEmpty then .error (errorMessage.getD [])
    else if errTruthy && requireSet && !isSet then .error (errorMessage.getD [])
    else if defaultValue.isSome && requireNonEmpty && isEmpty then
      .ok (defaultValue.getD [])
    else if defaultValue.isSome && requireSet && !isSet then
      .ok (defaultValue.getD [])
    else .ok (value.getD [])

/-- Result record of `interpolateString` (the `original` field is the input
itself and is kept by the caller). -/
structure InterpOut where
  resolved : JStr
  hasVariable : Bool
  varNames : List JStr
  errs : List (JStr × JStr)
deriving DecidableEq

/-- The replace loop over the scanned tokens, with the accumulated output,
`hasVariable` flag, `variables` list and collected `onError` payloads
(raw error message and extracted variable name, in occurrence order). -/
def interpGo (env : List (JStr × JStr)) (throwOnError : Bool) (toks : List Tok)
    (accRes : JStr) (accHas : Bool) (accVars : List JStr)
    (accErrs : List (JStr × JStr)) : Except JStr (JStr × Bool × List JStr × List (JStr × JStr)) :=
  match toks with
  | [] => .ok (accRes, accHas, accVars, accErrs)
  | .lit c :: rest => interpGo env throwOnError rest (accRes ++ [c]) accHas accVars accErrs
  | .ref expr :: rest =>
      let vn := varNameOf expr
      let accVars2 := if vn ∈ accVars then accVars else accVars ++ [vn]
      match substituteVariable expr env with
      | .ok v => interpGo env throwOnError rest (accRes ++ v) true accVars2 accErrs
      | .error e =>
          if throwOnError then .error e
          else
            interpGo env throwOnError rest (accRes ++ ('$' :: '{' :: (expr ++ ['}'])))
              true accVars2 (accErrs ++ [(e, vn)])

/-- `interpolateString(str, env, options)`: escape `$$`, scan and replace,
restore the placeholders. -/
def interpolateString (env : List (JStr × JStr)) (throwOnError : Bool)
    (str : JStr) : Except JStr InterpOut :=
  match interpGo env throwOnError (scanVars none (preprocessDollars str)) [] false [] [] with
  | .error e => .error e
  | .ok (res, has, vars, errs) => .ok ⟨restoreDollars res, has, vars, errs⟩

mutual

/-- `interpolate(value, env, addMetadata, options)` restricted to the
non-throwing shape used by the orchestrator when `throwOnError` is false;
a thrown error in throwing mode is the `.error` case.  The second
component collects the `onError` payloads in traversal order. -/
def interpolateV (env : List (JStr × JStr)) (addMetadata throwOnError : Bool) :
    Value → Except JStr (Value × List (JStr × JStr))
  | .vNull => .ok (.vNull, [])
  | .vStr s =>
      (match interpolateString env throwOnError s with
       | .error e => .error e
       | .ok out =>
           if addMetadata && out.hasVariable then
             .ok (.vObj [(("_value").toList, .vStr out.resolved),
                         (("_original").toList, .vStr s),
                         (("_hasVariable").toList, .vBool true),
                         (("_variables").toList, .vArr (out.varNames.map .vStr))],
                  out.errs)
           else .ok (.vStr out.resolved, out.errs))
  | .vArr items =>
      (match interpolateVList env addMetadata throwOnError items with
       | .error e => .error e
       | .ok (items2, errs) => .ok (.vArr items2, errs))
  | .vObj fields =>
      (match interpolateVFields env addMetadata throwOnError fields with
       | .error e => .error e
       | .ok (fields2, errs) => .ok (.vObj fields2, errs))
  | w => .ok (w, [])
termination_by v => (valSize v, 0)
decreasing_by
  all_goals simp only [Prod.lex_iff]
  all_goals simp [valSize, valSizeList, valSizeFields]
  all_goals
    first
    | omega
    | (have hv := valSize_pos v
       omega)

def interpolateVList (env : List (JStr × JStr)) (addMetadata throwOnError : Bool) :
    List Value → Except JStr (List Value × List (JStr × JStr))
  | [] => .ok ([], [])
  | v :: rest =>
      match interpolateV env addMetadata throwOnError v with
      | .error e => .error e
      | .ok (v2, e1) =>
          match interpolateVList env addMetadata throwOnError rest with
          | .error e => .error e
          | .ok (rest2, e2) => .ok (v2 :: rest2, e1 ++ e2)
termination_by items => (valSizeList items, 1)
decreasing_by
  all_goals simp only [Prod.lex_iff]
  all_goals simp [valSize, valSizeList, valSizeFields]
  all_goals
    first
    | omega
    | (have hv := valSize_pos v
       omega)

def interpolateVFields (env : List (JStr × JStr)) (addMetadata throwOnError : Bool) :
    List (JStr × Value) → Except JStr (List (JStr × Value) × List (JStr × JStr))
  | [] => .ok ([], [])
  | (k, v) :: rest =>
      match interpolateV env addMetadata throwOnError v with
      | .error e => .error e
      | .ok (v2, e1) =>
          match interpolateVFields env addMetadata throwOnError rest with
          | .error e => .error e
          | .ok (rest2, e2) => .ok ((k, v2) :: rest2, e1 ++ e2)
termination_by fields => (valSizeFields fields, 1)
decreasing_by
  all_goals simp only [Prod.lex_iff]
  all_goals simp [valSize, valSizeList, valSizeFields]
  all_goals
    first
    | omega
    | (have hv := valSize_pos v
       omega)

end

mutual

/-- The `extract` traversal of `extractVariables`: scan every string leaf
with the variable regex and collect base names (insertion-ordered set). -/
def extractVarsV (acc : List JStr) : Value → List JStr
  | .vStr s =>
      (scanVars none s).foldl
        (fun a tok =>
          match tok with
          | .ref expr => pushUnique a (varNameOf expr)
          | .lit _ => a) acc
  | .vArr items => extractVarsList acc items
  | .vObj fields => extractVarsFields acc fields
  | _ => acc
termination_by v => (valSize v, 0)
decreasing_by
  all_goals simp only [Prod.lex_iff]
  all_goals simp [valSize, valSizeList, valSizeFields]
  all_goals
    first
    | omega
    | (have hv := valSize_pos v
       omega)

def extractVarsList (acc : List JStr) : List Value → List JStr
  | [] => acc
  | v :: rest => extractVarsList (extractVarsV acc v) rest
termination_by items => (valSizeList items, 1)
decreasing_by
  all_goals simp only [Prod.lex_iff]
  all_goals simp [valSize, valSizeList, valSizeFields]
  all_goals
    first
    | omega
    | (have hv := valSize_pos v
       omega)

def extractVarsFields (acc : List JStr) : List (JStr × Value) → List JStr
  | [] => acc
  | (_, v) :: rest => extractVarsFields (extractVarsV acc v) rest
termination_by fields => (valSizeFields fields, 1)
decreasing_by
  all_goals simp only [Prod.lex_iff]
  all_goals simp [valSize, valSizeList, valSizeFields]
  all_goals
    first
    | omega
    | (have hv := valSize_pos v
       omega)

end

/-- `extractVariables(compose)`. -/
def extractVariables (compose : Value) : List JStr := extractVarsV [] compose

/-- `getUndefinedVariables(compose, env)`: referenced names absent from the
environment (environment values are strings, so the `null` half of the
check cannot fire in the model). -/
def getUndefinedVariables (compose : Value) (env : List (JStr × JStr)) : List JStr :=
  (extractVariables compose).filter (fun n => (List.lookup n env).isNone)

/-! ## Orchestrator parseCompose (src/unnamed/part_004) -/

/-- One entry of the `errors` array of `parseCompose` (the optional
`undefinedVariables` / `stack` extras carry no further information in the
model). -/
structure Diag where
  dtype : JStr
  message : JStr
  stage : JStr
deriving DecidableEq

/-- The record returned by `parseCompose`.  The raw YAML parse is performed
by the external collaborator js-yaml, so the model receives its outcome
(`Except` of the thrown message, or the parsed value) as the input. -/
structure ParseResult where
  compose : Option Value
  profiles : List JStr
  profileCounts : List (JStr × Nat)
  refVariables : List JStr
  undefinedVariables : List JStr
  errors : List Diag

/-- The fatal catch-all result of `parseCompose`. -/
def fatalResult (e : JStr) : ParseResult :=
  ParseResult.mk none [] [] [] []
    [Diag.mk (("fatal").toList) e (("yaml-parsing").toList)]

/-- The message cooking of the interpolation `onError` callback. -/
def variableDiagMessage (raw vn : JStr) : JStr :=
  let rawMessage := if raw.isEmpty then ("Variable interpolation error").toList else raw
  if vn.isEmpty then rawMessage
  else if rawMessage = ("required").toList ∨ rawMessage = ("error").toList then
    ("Missing required variable: ").toList ++ vn
  else if ¬ (vn <:+: rawMessage) then
    rawMessage ++ (" (").toList ++ vn ++ (")").toList
  else rawMessage

/-- Deduplication of interpolation diagnostics by `message:varName` key
(the `interpolationErrors` set of the source). -/
def dedupVarDiagsGo (pending : List (JStr × JStr)) (seen : List JStr) : List Diag :=
  match pending with
  | [] => []
  | (raw, vn) :: rest =>
      let msg := variableDiagMessage raw vn
      let key := msg ++ (":").toList ++ vn
      if key ∈ seen then dedupVarDiagsGo rest seen
      else
        Diag.mk (("variable").toList) msg (("variable-interpolation").toList) ::
          dedupVarDiagsGo rest (seen ++ [key])

/-- Stage 2 of `parseCompose` (`if (enableIncludes) try/catch` block): the
document after include resolution together with the diagnostics the stage
pushed. -/
def incStepF (enableIncludes : Bool) (fileMap : List (JStr × Value))
    (compose0 : Value) (basePath : JStr) : Value × List Diag :=
  if enableIncludes then
    match resolveIncludes fileMap compose0 basePath [] with
    | .ok c => (c, [])
    | .error m =>
        (compose0, [Diag.mk (("include").toList) m (("include-resolution").toList)])
  else (compose0, [])

/-- Stage 3 of `parseCompose` (`if (enableExtends) try/catch` block). -/
def extStepF (enableExtends : Bool) (c1 : Value) : Value × List Diag :=
  if enableExtends then
    match resolveAllExtends c1 with
    | .ok c => (c, [])
    | .error m =>
        (c1, [Diag.mk (("extends").toList) m (("extends-resolution").toList)])
  else (c1, [])

/-- The undefined-variable warning push of `parseCompose`. -/
def warnDiagsF (undefinedVars : List JStr) : List Diag :=
  if undefinedVars.isEmpty then []
  else
    [Diag.mk (("warning").toList)
      ( ("Undefined variables: ").toList ++ joinSepStr ((", ").toList) undefinedVars)
      (("variable-validation").toList)]

/-- Stage 4 of `parseCompose` (`if (enableVariables) try/catch` block). -/
def varStepF (enableVariables : Bool) (environment : List (JStr × JStr))
    (addMetadata : Bool) (c2 : Value) : Value × List Diag :=
  if enableVariables then
    match interpolateV environment addMetadata false c2 with
    | .ok (c, rawErrs) => (c, dedupVarDiagsGo rawErrs [])
    | .error m =>
        (c2, [Diag.mk (("variable").toList) m (("variable-interpolation").toList)])
  else (c2, [])

/-- `parseCompose(yamlString, options)`: multi-stage pipeline.  Only the
stage-1 outcomes produce a fatal result; include/extends failures are
recorded and the pipeline continues with the prior document. -/
def parseCompose (rawParse : Except JStr Value) (environment : List (JStr × JStr))
    (activeProfiles : List JStr) (basePath : JStr) (fileMap : List (JStr × Value))
    (enableIncludes enableExtends enableVariables enableProfiles addMetadata : Bool) :
    ParseResult :=
  match rawParse with
  | .error e => fatalResult e
  | .ok compose0 =>
      if !(compose0.truthy && compose0.isObjType) then
        fatalResult (("Invalid YAML: expected object at root").toList)
      else
        let incStep := incStepF enableIncludes fileMap compose0 basePath
        let extStep := extStepF enableExtends incStep.1
        let c2 := extStep.1
        let allProfiles := listAllProfiles c2
        let profileCounts := getProfileCounts c2
        let allVariables := if enableVariables then extractVariables c2 else []
        let undefinedVars := if enableVariables then getUndefinedVariables c2 environment else []
        let warnDiags := warnDiagsF undefinedVars
        let varStep := varStepF enableVariables environment addMetadata c2
        let c4 := if enableProfiles then filterByProfiles varStep.1 activeProfiles else varStep.1
        ParseResult.mk (some c4) allProfiles profileCounts allVariables undefinedVars
          (incStep.2 ++ extStep.2 ++ warnDiags ++ varStep.2)

/-! ## ConflictComparator (src/unnamed/part_006, the comparison module whose
`extractHostPort` export is imported by validation.js; the copy at
src/src/utils/comparison.js lacks the bracketed-IPv6 branch but has an
otherwise identical `compareProjects`) -/

/-- `normalizeArray` of validation.js (src/unnamed/part_003). -/
def normalizeArray (v : Option Value) : List Value :=
  match v with
  | some (.vArr items) => items
  | _ => []

/-- String body of `extractHostPort`, after the non-string guard.  The
3-part / 2-part dispatch mirrors the `parts.length` checks of the source
(3 parts: `IP:HOST:CONTAINER`, skipping the ambiguous `::...` form;
2 parts: `HOST:CONTAINER` on all interfaces; anything else: no key). -/
def extractHostPortStr (s : JStr) : Option JStr :=
  let ipHost : Option (JStr × JStr) :=
    if s.head? = some '[' then
      if ']' ∈ s then
        let remaining := (s.dropWhile (fun c => c ≠ ']')).drop 1
        if remaining.head? = some ':' then
          some ((s.takeWhile (fun c => c ≠ ']')) ++ [']'],
            (splitOn1 ':' (remaining.drop 1)).headD [])
        else none
      else none
    else
      let parts := splitOn1 ':' s
      if parts.length = 3 then
        (if parts.headD [] = [] ∧ (parts.drop 1).headD [] = [] then none
         else some (parts.headD [], (parts.drop 1).headD []))
      else if parts.length = 2 then some ((("0.0.0.0").toList), parts.headD [])
      else none
  match ipHost with
  | none => none
  | some (ip, hostPort0) =>
      if hostPort0.isEmpty then none
      else some (ip ++ ':' :: (splitOn1 '/' hostPort0).headD [])

/-- `extractHostPort(portMapping)` of the comparison module with bracketed
IPv6 support (src/unnamed/part_006). -/
def extractHostPort (portMapping : Value) : Option JStr :=
  match portMapping with
  | .vStr s => if s.isEmpty then none else extractHostPortStr s
  | _ => none

/-- `extractVolumeSource(volumeMapping)`. -/
def extractVolumeSource (volumeMapping : Value) : Option JStr :=
  match volumeMapping with
  | .vStr s =>
      if s.isEmpty then none
      else
        let h := (splitOn1 ':' s).headD []
        if h.isEmpty then none else some h
  | _ => none

/-- Push into an insertion-ordered string-keyed occurrence map. -/
def mapPushJ (m : List (JStr × List JStr)) (k : JStr) (u : JStr) :
    List (JStr × List JStr) :=
  match m with
  | [] => [(k, [u])]
  | (k2, us) :: rest =>
      if k2 = k then (k2, us ++ [u]) :: rest else (k2, us) :: mapPushJ rest k u

/-- Push into an insertion-ordered value-keyed occurrence map (JS `Map`
compares keys with sameValueZero, here `beqV`). -/
def mapPushV (m : List (Value × List JStr)) (k : Value) (u : JStr) :
    List (Value × List JStr) :=
  match m with
  | [] => [(k, [u])]
  | (k2, us) :: rest =>
      if beqV k2 k then (k2, us ++ [u]) :: rest else (k2, us) :: mapPushV rest k u

/-- The six occurrence maps of `compareProjects` (usages are reduced to the
project name, the only component the finding generation reads). -/
structure CollMaps where
  ports : List (JStr × List JStr)
  containers : List (Value × List JStr)
  serviceNames : List (JStr × List JStr)
  volumes : List (JStr × List JStr)
  networks : List (JStr × List JStr)
  envFiles : List (Value × List JStr)

/-- Per-service collection step of `compareProjects`. -/
def collectService (pname : JStr) (acc : CollMaps) (entry : JStr × Value) : CollMaps :=
  let svc := entry.2
  let sm := mapPushJ acc.serviceNames entry.1 pname
  let cm :=
    match propGet svc (("container_name").toList) with
    | some cn => if cn.truthy then mapPushV acc.containers cn pname else acc.containers
    | none => acc.containers
  let pm :=
    (normalizeArray (propGet svc (("ports").toList))).foldl
      (fun a port =>
        match extractHostPort port with
        | some hp => mapPushJ a hp pname
        | none => a) acc.ports
  let vm :=
    (normalizeArray (propGet svc (("volumes").toList))).foldl
      (fun a vol =>
        match extractVolumeSource vol with
        | some src => mapPushJ a src pname
        | none => a) acc.volumes
  let em :=
    (normalizeArray (propGet svc (("env_file").toList))).foldl
      (fun a ef => mapPushV a ef pname) acc.envFiles
  CollMaps.mk pm cm sm vm acc.networks em

/-- Per-project collection step of `compareProjects`. -/
def collectProject (acc : CollMaps) (proj : JStr × Value) : CollMaps :=
  let pname := proj.1
  let content := proj.2
  if !content.truthy then acc
  else
    let services :=
      match propGet content servicesKey with
      | some sv => if sv.truthy then toSpread sv else []
      | none => []
    let acc2 := services.foldl (collectService pname) acc
    let networkNames :=
      match propGet content (("networks").toList) with
      | some nv => if nv.truthy then (toSpread nv).map Prod.fst else []
      | none => []
    let nm := networkNames.foldl (fun a nk => mapPushJ a nk pname) acc2.networks
    CollMaps.mk acc2.ports acc2.containers acc2.serviceNames acc2.volumes nm acc2.envFiles

/-- `ComparisonResult` (the `details` payload carries no information the
claims read and is dropped). -/
structure Finding where
  ftype : JStr
  category : JStr
  severity : JStr
  message : JStr
  projects : List JStr
deriving DecidableEq

/-- `[...new Set(xs)]`. -/
def dedupJ (l : List JStr) : List JStr := l.foldl pushUnique []

/-- `compareProjects(projects)`: collect the occurrence maps and emit the
findings in the order of the source (ports, container names, volumes,
networks, env files, service names).  A project is `(name, content)`;
the unused `id` field is dropped. -/
def compareProjects (projects : List (JStr × Value)) : List Finding :=
  if projects.length < 2 then []
  else
    let maps := projects.foldl collectProject (CollMaps.mk [] [] [] [] [] [])
    let portFindings :=
      maps.ports.filterMap (fun p =>
        if 1 < p.2.length then
          let pis := dedupJ p.2
          if 1 < pis.length then
            some (Finding.mk (("conflict").toList) (("port").toList) (("error").toList)
              ( ("Port binding ").toList ++ p.1 ++ (" is used by multiple projects").toList)
              pis)
          else none
        else none)
    let containerFindings :=
      maps.containers.filterMap (fun p =>
        if 1 < p.2.length then
          let pis := dedupJ p.2
          if 1 < pis.length then
            some (Finding.mk (("conflict").toList) (("container_name").toList)
              (("error").toList)
              ( ("Container name \"").toList ++ keyString p.1 ++
                ("\" is used by multiple projects").toList)
              pis)
          else none
        else none)
    let volumeFindings :=
      maps.volumes.filterMap (fun p =>
        if 1 < p.2.length then
          let pis := dedupJ p.2
          if 1 < pis.length then
            let isHostPath :=
              match p.1 with
              | '.' :: _ => true
              | '/' :: _ => true
              | _ => false
            some (Finding.mk
              (if isHostPath then ("conflict").toList else ("shared").toList)
              (("volume").toList)
              (if isHostPath then ("warning").toList else ("info").toList)
              (if isHostPath then
                ("Host path \"").toList ++ p.1 ++
                  ("\" is mounted by multiple projects").toList
               else
                ("Volume \"").toList ++ p.1 ++
                  ("\" is used by multiple projects").toList)
              pis)
          else none
        else none)
    let networkFindings :=
      maps.networks.filterMap (fun p =>
        if 1 < p.2.length then
          some (Finding.mk (("shared").toList) (("network").toList) (("info").toList)
            ( ("Network \"").toList ++ p.1 ++
              ("\" is defined in multiple projects").toList)
            p.2)
        else none)
    let envFindings :=
      maps.envFiles.filterMap (fun p =>
        if 1 < p.2.length then
          let pis := dedupJ p.2
          if 1 < pis.length then
            some (Finding.mk (("shared").toList) (("env_file").toList) (("info").toList)
              ( ("Env file \"").toList ++ keyString p.1 ++
                ("\" is used by multiple projects").toList)
              pis)
          else none
        else none)
    let serviceNameFindings :=
      maps.serviceNames.filterMap (fun p =>
        if 1 < p.2.length then
          some (Finding.mk (("shared").toList) (("service_name").toList) (("info").toList)
            ( ("Service name \"").toList ++ p.1 ++
              ("\" exists in multiple projects").toList)
            p.2)
        else none)
    portFindings ++ containerFindings ++ volumeFindings ++ networkFindings ++
      envFindings ++ serviceNameFindings

/-! ## Basic lemmas about the object operations -/

theorem objGet_objSet_self (fields : List (JStr × Value)) (k : JStr) (v : Value) :
    objGet (objSet fields k v) k = some v := by
  induction fields with
  | nil => simp [objSet, objGet]
  | cons p rest ih =>
      by_cases hk : p.1 = k
      · simp [objSet, objGet, hk]
      · simp [objSet, objGet, hk, ih]

theorem objGet_objSet_ne (fields : List (JStr × Value)) {k k2 : JStr} (v : Value)
    (h : k ≠ k2) : objGet (objSet fields k v) k2 = objGet fields k2 := by
  induction fields with
  | nil => simp [objSet, objGet, h]
  | cons p rest ih =>
      by_cases hk : p.1 = k
      · simp [objSet, objGet, hk, h]
      · simp [objSet, objGet, hk, ih]

theorem mem_objSet {fields : List (JStr × Value)} {k : JStr} {v : Value}
    {p : JStr × Value} (h : p ∈ objSet fields k v) : p = (k, v) ∨ p ∈ fields := by
  induction fields with
  | nil => simp [objSet] at h; simp [h]
  | cons q rest ih =>
      by_cases hk : q.1 = k
      · rw [objSet, if_pos hk] at h
        rcases List.mem_cons.mp h with h2 | h2
        · subst h2
          left
          rw [← hk]
        · right; exact List.mem_cons.mpr (Or.inr h2)
      · rw [objSet, if_neg hk] at h
        rcases List.mem_cons.mp h with h2 | h2
        · right; exact List.mem_cons.mpr (Or.inl h2)
        · rcases ih h2 with h3 | h3
          · exact Or.inl h3
          · exact Or.inr (List.mem_cons.mpr (Or.inr h3))

theorem objGet_mem {fields : List (JStr × Value)} {k : JStr} {v : Value}
    (h : objGet fields k = some v) : (k, v) ∈ fields := by
  induction fields with
  | nil => simp [objGet] at h
  | cons p rest ih =>
      by_cases hk : p.1 = k
      · rw [objGet] at h
        obtain ⟨p1, p2⟩ := p
        simp only at hk
        rw [if_pos hk] at h
        subst hk
        injection h with h
        subst h
        exact List.mem_cons_self _ _
      · rw [objGet] at h
        obtain ⟨p1, p2⟩ := p
        simp only at hk
        rw [if_neg hk] at h
        exact List.mem_cons.mpr (Or.inr (ih h))

theorem objGet_objRemove_ne {fields : List (JStr × Value)} {k k2 : JStr}
    (h : k2 ≠ k) : objGet (objRemove fields k) k2 = objGet fields k2 := by
  induction fields with
  | nil => simp [objRemove, objGet]
  | cons p rest ih =>
      by_cases hk : p.1 = k
      · have : ¬ (p.1 ≠ k) := by simpa using hk
        simp only [objRemove, List.filter_cons, decide_eq_true_eq]
        rw [if_neg (by simpa using hk)]
        rw [objRemove] at ih
        rw [ih, objGet]
        obtain ⟨p1, p2⟩ := p
        simp only at hk
        rw [if_neg (by rw [hk]; exact fun hh => h hh.symm)]
  
      · simp only [objRemove, List.filter_cons]
        rw [if_pos (by simpa using hk)]
        rw [objGet, objGet]
        obtain ⟨p1, p2⟩ := p
        by_cases h12 : p1 = k2
        · simp [h12]
        · simp only [h12, if_false]
          rw [objRemove] at ih
          exact ih

theorem objGet_objRemove_self (fields : List (JStr × Value)) (k : JStr) :
    objGet (objRemove fields k) k = none := by
  induction fields with
  | nil => simp [objRemove, objGet]
  | cons p rest ih =>
      by_cases hk : p.1 = k
      · simp only [objRemove, List.filter_cons]
        rw [if_neg (by simpa using hk)]
        rw [objRemove] at ih
        exact ih
      · simp only [objRemove, List.filter_cons]
        rw [if_pos (by simpa using hk)]
        rw [objGet]
        obtain ⟨p1, p2⟩ := p
        simp only at hk
        rw [if_neg hk]
        rw [objRemove] at ih
        exact ih

theorem mem_objRemove {fields : List (JStr × Value)} {k : JStr} {p : JStr × Value}
    (h : p ∈ objRemove fields k) : p ∈ fields := by
  exact List.mem_of_mem_filter h

/-! ## Numeric spread keys are never the field names of interest -/

theorem natDigits_head (n : Nat) :
    ∃ d, d < 10 ∧ (natDigits n).head? = some (Char.ofNat (48 + d)) := by
  induction n using Nat.strong_induction_on with
  | _ n ih =>
      by_cases h : n < 10
      · exact ⟨n, h, by rw [natDigits, if_pos h]; rfl⟩
      · obtain ⟨d, hd, hh⟩ := ih (n / 10) (by omega)
        refine ⟨d, hd, ?_⟩
        rw [natDigits, if_neg h]
        cases hns : natDigits (n / 10) with
        | nil => rw [hns] at hh; simp at hh
        | cons c rest => rw [hns] at hh; simpa using hh

theorem natDigits_ne_of_head {k : JStr}
    (hk : ∀ d, d < 10 → k.head? ≠ some (Char.ofNat (48 + d))) :
    ∀ n, natDigits n ≠ k := by
  intro n h
  obtain ⟨d, hd, hh⟩ := natDigits_head n
  rw [h] at hh
  exact hk d hd hh

theorem digit_head_auxiliary {k : JStr} {c : Char} (hhead : k.head? = some c)
    (hc : c.toNat < 48 ∨ 57 < c.toNat) : ∀ n, natDigits n ≠ k := by
  apply natDigits_ne_of_head
  intro d hd hcontra
  rw [hhead] at hcontra
  injection hcontra with hceq
  have hval : c.toNat = 48 + d := by
    rw [hceq]
    have : d = 0 ∨ d = 1 ∨ d = 2 ∨ d = 3 ∨ d = 4 ∨ d = 5 ∨ d = 6 ∨ d = 7 ∨ d = 8 ∨ d = 9 := by
      omega
    rcases this with h|h|h|h|h|h|h|h|h|h <;> subst h <;> decide
  omega

theorem natDigits_ne_extendsKey : ∀ n, natDigits n ≠ extendsKey :=
  @digit_head_auxiliary extendsKey 'e' (by decide) (by decide)

theorem natDigits_ne_dependsOnKey : ∀ n, natDigits n ≠ dependsOnKey :=
  @digit_head_auxiliary dependsOnKey 'd' (by decide) (by decide)

theorem natDigits_ne_servicesKey : ∀ n, natDigits n ≠ servicesKey :=
  @digit_head_auxiliary servicesKey 's' (by decide) (by decide)

theorem objGet_enumFrom {k : JStr} (hk : ∀ n, natDigits n ≠ k) (items : List Value) :
    ∀ i, objGet (enumFrom i items) k = none := by
  induction items with
  | nil => intro i; rfl
  | cons v rest ih =>
      intro i
      rw [enumFrom, objGet]
      rw [if_neg ?_]
      · exact ih (i + 1)
      · simp only [intToJStr]
        rw [if_neg (by simp)]
        simpa using hk i

/-- On non-numeric keys, the entries produced by object spread look up the
same way as a direct property access. -/
theorem objGet_toSpread {k : JStr} (hk : ∀ n, natDigits n ≠ k) (v : Value) :
    objGet (toSpread v) k = propGet v k := by
  cases v with
  | vObj fields => rfl
  | vArr items => simp [toSpread, propGet, objGet_enumFrom hk]
  | vStr s => simp [toSpread, propGet, objGet_enumFrom hk]
  | vNull => rfl
  | vBool b => rfl
  | vNum n => rfl

/-! ## Lemmas about scanning and splitting -/

theorem takeWhile_append_all {p : Char → Bool} :
    ∀ {x y : JStr}, (∀ c ∈ x, p c = true) →
    (x ++ y).takeWhile p = x ++ y.takeWhile p := by
  intro x
  induction x with
  | nil => intro y _; simp
  | cons c rest ih =>
      intro y h
      simp only [List.cons_append, List.takeWhile_cons]
      rw [h c (List.mem_cons_self _ _)]
      rw [ih (fun d hd => h d (List.mem_cons.mpr (Or.inr hd)))]
      simp

theorem dropWhile_append_all {p : Char → Bool} :
    ∀ {x y : JStr}, (∀ c ∈ x, p c = true) →
    (x ++ y).dropWhile p = y.dropWhile p := by
  intro x
  induction x with
  | nil => intro y _; simp
  | cons c rest ih =>
      intro y h
      simp only [List.cons_append, List.dropWhile_cons]
      rw [h c (List.mem_cons_self _ _)]
      simp only [if_true]
      exact ih (fun d hd => h d (List.mem_cons.mpr (Or.inr hd)))

theorem splitOn1_headD (a : Char) (l : JStr) :
    (splitOn1 a l).headD [] = l.takeWhile (fun c => decide (c ≠ a)) := by
  induction l with
  | nil => rfl
  | cons c rest ih =>
      by_cases hc : c = a
      · subst hc
        simp [splitOn1, List.takeWhile_cons]
      · simp only [splitOn1, if_neg hc]
        cases hsplit : splitOn1 a rest with
        | nil => exact absurd hsplit (splitOn1_ne_nil a rest)
        | cons h0 t =>
            rw [hsplit] at ih
            simp only [consHead, List.takeWhile_cons, List.headD]
            rw [if_pos (by simpa using hc)]
            simp only [List.headD] at ih
            rw [ih]

/-! ## C2: bracketed-IPv6 host-binding extraction -/

/-- General shape of the `[IPv6]:HOST:CONTAINER` form. -/
theorem extractHostPort_bracketed3 (addr p q : JStr)
    (haddr : ']' ∉ addr) (hp : p ≠ []) (hpc : ':' ∉ p) (hps : '/' ∉ p) :
    extractHostPort (.vStr ('[' :: (addr ++ (']' :: ':' :: (p ++ ':' :: q))))) =
      some ('[' :: (addr ++ (']' :: ':' :: p))) := by
  have haddrP : ∀ d ∈ addr, (decide (d ≠ ']')) = true := by
    intro d hd
    simp only [decide_eq_true_eq]
    intro hcontra
    exact haddr (hcontra ▸ hd)
  have htake : (('[' :: (addr ++ (']' :: ':' :: (p ++ ':' :: q)))).takeWhile
      (fun c => decide (c ≠ ']'))) = '[' :: addr := by
    rw [List.takeWhile_cons]
    rw [show (decide (('[' : Char) ≠ ']')) = true from by decide]
    simp only [if_true]
    rw [takeWhile_append_all haddrP]
    rw [List.takeWhile_cons]
    simp
  have hdrop : (('[' :: (addr ++ (']' :: ':' :: (p ++ ':' :: q)))).dropWhile
      (fun c => decide (c ≠ ']'))) = ']' :: ':' :: (p ++ ':' :: q) := by
    rw [List.dropWhile_cons]
    rw [show (decide (('[' : Char) ≠ ']')) = true from by decide]
    simp only [if_true]
    rw [dropWhile_append_all haddrP]
    rw [List.dropWhile_cons]
    simp
  rw [extractHostPort]
  rw [if_neg (by simp)]
  rw [extractHostPortStr]
  simp only [List.head?_cons, Option.some.injEq]
  rw [if_pos (by trivial)]
  rw [if_pos (by simp)]
  rw [htake, hdrop]
  simp only [List.drop_succ_cons, List.drop_zero, List.head?_cons, Option.some.injEq]
  rw [if_pos (by trivial)]
  rw [splitOn1_append_sep hpc]
  simp only [List.headD_cons]
  rw [if_neg (by simpa using hp)]
  rw [splitOn1_no_sep hps]
  simp

/-- General shape of the `[IPv6]:HOST` form. -/
theorem extractHostPort_bracketed2 (addr p : JStr)
    (haddr : ']' ∉ addr) (hp : p ≠ []) (hpc : ':' ∉ p) (hps : '/' ∉ p) :
    extractHostPort (.vStr ('[' :: (addr ++ (']' :: ':' :: p)))) =
      some ('[' :: (addr ++ (']' :: ':' :: p))) := by
  have haddrP : ∀ d ∈ addr, (decide (d ≠ ']')) = true := by
    intro d hd
    simp only [decide_eq_true_eq]
    intro hcontra
    exact haddr (hcontra ▸ hd)
  have htake : (('[' :: (addr ++ (']' :: ':' :: p))).takeWhile
      (fun c => decide (c ≠ ']'))) = '[' :: addr := by
    rw [List.takeWhile_cons]
    rw [show (decide (('[' : Char) ≠ ']')) = true from by decide]
    simp only [if_true]
    rw [takeWhile_append_all haddrP]
    rw [List.takeWhile_cons]
    simp
  have hdrop : (('[' :: (addr ++ (']' :: ':' :: p))).dropWhile
      (fun c => decide (c ≠ ']'))) = ']' :: ':' :: p := by
    rw [List.dropWhile_cons]
    rw [show (decide (('[' : Char) ≠ ']')) = true from by decide]
    simp only [if_true]
    rw [dropWhile_append_all haddrP]
    rw [List.dropWhile_cons]
    simp
  rw [extractHostPort]
  rw [if_neg (by simp)]
  rw [extractHostPortStr]
  simp only [List.head?_cons, Option.some.injEq]
  rw [if_pos (by trivial)]
  rw [if_pos (by simp)]
  rw [htake, hdrop]
  simp only [List.drop_succ_cons, List.drop_zero, List.head?_cons, Option.some.injEq]
  rw [if_pos (by trivial)]
  rw [splitOn1_no_sep hpc]
  simp only [List.headD_cons]
  rw [if_neg (by simpa using hp)]
  rw [splitOn1_no_sep hps]
  simp

/-- C2: the comparator's host-binding extraction maps "[::1]:8080:80" to the
canonical key "[::1]:8080" and supports the bracketed forms
[IPv6]:HOST:CONTAINER and [IPv6]:HOST in general; it never yields the
bracket-stripped or bare IPv6 address as a port key. -/
theorem claim_C2_bracketed_ipv6_host_binding :
    (extractHostPort (.vStr (("[::1]:8080:80").toList)) = some (("[::1]:8080").toList)) ∧
    (extractHostPort (.vStr (("[::1]:8080").toList)) = some (("[::1]:8080").toList)) ∧
    (extractHostPort (.vStr (("[::1]:8080:80").toList)) ≠ some (("::1:8080").toList)) ∧
    (extractHostPort (.vStr (("[::1]:8080:80").toList)) ≠ some (("::1").toList)) ∧
    (∀ addr p q : JStr, ']' ∉ addr → p ≠ [] → ':' ∉ p → '/' ∉ p →
      extractHostPort (.vStr ('[' :: (addr ++ (']' :: ':' :: (p ++ ':' :: q))))) =
        some ('[' :: (addr ++ (']' :: ':' :: p)))) ∧
    (∀ addr p : JStr, ']' ∉ addr → p ≠ [] → ':' ∉ p → '/' ∉ p →
      extractHostPort (.vStr ('[' :: (addr ++ (']' :: ':' :: p)))) =
        some ('[' :: (addr ++ (']' :: ':' :: p)))) :=
  ⟨by decide, by decide, by decide, by decide,
   extractHostPort_bracketed3, extractHostPort_bracketed2⟩

theorem claim_C2_bracketed_ipv6_host_binding_witness :
    (']' ∉ (("::1").toList) ∧ (("8080").toList) ≠ ([] : JStr) ∧
      ':' ∉ (("8080").toList) ∧ '/' ∉ (("8080").toList)) ∧
    extractHostPort (.vStr ('[' :: ((("::1").toList) ++
        (']' :: ':' :: ((("8080").toList) ++ ':' :: (("80").toList)))))) =
      some ('[' :: ((("::1").toList) ++ (']' :: ':' :: (("8080").toList)))) :=
  ⟨⟨by decide, by decide, by decide, by decide⟩,
   claim_C2_bracketed_ipv6_host_binding.2.2.2.2.1 (("::1").toList) (("8080").toList)
     (("80").toList) (by decide) (by decide) (by decide) (by decide)⟩

/-! ## C4: canonical 0.0.0.0 keys and cross-project port findings -/

/-- General shape of the `HOST:CONTAINER` form: no explicit bind address
canonicalizes to 0.0.0.0 (with the protocol suffix stripped). -/
theorem extractHostPort_default_bind (h c : JStr) (hne : h ≠ [])
    (hh : ':' ∉ h) (hc : ':' ∉ c) (hbr : h.head? ≠ some '[') :
    extractHostPort (.vStr (h ++ ':' :: c)) =
      some ((("0.0.0.0").toList) ++ ':' :: h.takeWhile (fun d => decide (d ≠ '/'))) := by
  rw [extractHostPort]
  rw [if_neg ?empty]
  case empty =>
    cases h with
    | nil => exact absurd rfl hne
    | cons a t => simp
  rw [extractHostPortStr]
  rw [if_neg ?br]
  case br =>
    cases h with
    | nil => exact absurd rfl hne
    | cons a t =>
        simp only [List.cons_append, List.head?_cons] at hbr ⊢
        exact hbr
  rw [splitOn1_append_sep hh, splitOn1_no_sep hc]
  simp only [List.length_cons, List.length_nil]
  rw [if_neg (by omega)]
  rw [if_pos (by decide)]
  simp only [List.headD_cons]
  rw [if_neg (by simpa using hne)]
  rw [splitOn1_headD]

theorem pushUnique_nodup {acc : List JStr} (x : JStr) (h : acc.Nodup) :
    (pushUnique acc x).Nodup := by
  by_cases hmem : x ∈ acc
  · simpa [pushUnique, hmem] using h
  · rw [pushUnique, if_neg hmem, List.nodup_append]
    refine ⟨h, List.nodup_singleton x, ?_⟩
    intro y hy hyx
    simp only [List.mem_singleton] at hyx
    subst hyx
    exact hmem hy

theorem dedupJ_nodup (l : List JStr) : (dedupJ l).Nodup := by
  rw [dedupJ]
  have main : ∀ acc : List JStr, acc.Nodup → (l.foldl pushUnique acc).Nodup := by
    induction l with
    | nil => intro acc h; exact h
    | cons x rest ih =>
        intro acc h
        exact ih (pushUnique acc x) (pushUnique_nodup x h)
  exact main [] List.nodup_nil

/-- Port findings always span at least two distinct projects: the
comparator flags a key only when its occurrences involve more than one
project, and the reported project list is deduplicated. -/
theorem port_finding_spans_projects (ps : List (JStr × Value)) (f : Finding)
    (hf : f ∈ compareProjects ps) (hcat : f.category = ("port").toList) :
    f.projects.Nodup ∧ 2 ≤ f.projects.length := by
  rw [compareProjects] at hf
  by_cases hlen : ps.length < 2
  · rw [if_pos hlen] at hf
    simp at hf
  · rw [if_neg hlen] at hf
    simp only [List.mem_append, List.mem_filterMap] at hf
    rcases hf with ((((⟨a, ha, heq⟩ | ⟨a, ha, heq⟩) | ⟨a, ha, heq⟩) | ⟨a, ha, heq⟩) |
        ⟨a, ha, heq⟩) | ⟨a, ha, heq⟩
    · by_cases h1 : 1 < a.2.length
      · rw [if_pos h1] at heq
        by_cases h2 : 1 < (dedupJ a.2).length
        · rw [if_pos h2] at heq
          injection heq with heqf
          subst heqf
          refine ⟨dedupJ_nodup a.2, ?_⟩
          show 2 ≤ (dedupJ a.2).length
          omega
        · rw [if_neg h2] at heq
          simp at heq
      · rw [if_neg h1] at heq
        simp at heq
    · exfalso
      by_cases h1 : 1 < a.2.length
      · rw [if_pos h1] at heq
        by_cases h2 : 1 < (dedupJ a.2).length
        · rw [if_pos h2] at heq
          injection heq with heqf
          subst heqf
          simp at hcat
        · rw [if_neg h2] at heq
          simp at heq
      · rw [if_neg h1] at heq
        simp at heq
    · exfalso
      by_cases h1 : 1 < a.2.length
      · rw [if_pos h1] at heq
        by_cases h2 : 1 < (dedupJ a.2).length
        · rw [if_pos h2] at heq
          injection heq with heqf
          subst heqf
          simp at hcat
        · rw [if_neg h2] at heq
          simp at heq
      · rw [if_neg h1] at heq
        simp at heq
    · exfalso
      by_cases h1 : 1 < a.2.length
      · rw [if_pos h1] at heq
        injection heq with heqf
        subst heqf
        simp at hcat
      · rw [if_neg h1] at heq
        simp at heq
    · exfalso
      by_cases h1 : 1 < a.2.length
      · rw [if_pos h1] at heq
        by_cases h2 : 1 < (dedupJ a.2).length
        · rw [if_pos h2] at heq
          injection heq with heqf
          subst heqf
          simp at hcat
        · rw [if_neg h2] at heq
          simp at heq
      · rw [if_neg h1] at heq
        simp at heq
    · exfalso
      by_cases h1 : 1 < a.2.length
      · rw [if_pos h1] at heq
        injection heq with heqf
        subst heqf
        simp at hcat
      · rw [if_neg h1] at heq
        simp at heq

/-- C4: port mappings without an explicit bind address canonicalize to host
0.0.0.0; a port conflict is flagged only for identical canonical keys
spanning more than one project; "127.0.0.1:80:80" against "80:80" yields no
findings, while "443:443" in both projects yields exactly one
error-severity port finding naming 0.0.0.0:443. -/
theorem claim_C4_default_bind_and_port_conflicts :
    (∀ h c : JStr, h ≠ [] → ':' ∉ h → ':' ∉ c → h.head? ≠ some '[' →
      extractHostPort (.vStr (h ++ ':' :: c)) =
        some ((("0.0.0.0").toList) ++ ':' :: h.takeWhile (fun d => decide (d ≠ '/')))) ∧
    (∀ ps f, f ∈ compareProjects ps → f.category = ("port").toList →
      f.projects.Nodup ∧ 2 ≤ f.projects.length) ∧
    (compareProjects
      [(("Project 1").toList, .vObj [(servicesKey, .vObj [(("web").toList,
          .vObj [(("ports").toList, .vArr [.vStr (("127.0.0.1:80:80").toList)])])])]),
       (("Project 2").toList, .vObj [(servicesKey, .vObj [(("api").toList,
          .vObj [(("ports").toList, .vArr [.vStr (("80:80").toList)])])])])] = []) ∧
    ((compareProjects
      [(("Project 1").toList, .vObj [(servicesKey, .vObj [(("web").toList,
          .vObj [(("ports").toList, .vArr [.vStr (("443:443").toList)])])])]),
       (("Project 2").toList, .vObj [(servicesKey, .vObj [(("api").toList,
          .vObj [(("ports").toList, .vArr [.vStr (("443:443").toList)])])])])]).filter
        (fun f => decide (f.category = ("port").toList))
      = [Finding.mk (("conflict").toList) (("port").toList) (("error").toList)
          (("Port binding 0.0.0.0:443 is used by multiple projects").toList)
          [("Project 1").toList, ("Project 2").toList]]) :=
  ⟨extractHostPort_default_bind, port_finding_spans_projects, by decide, by decide⟩

theorem claim_C4_default_bind_and_port_conflicts_witness :
    ((("80").toList) ≠ ([] : JStr) ∧ ':' ∉ (("80").toList)) ∧
    extractHostPort (.vStr ((("80").toList) ++ ':' :: (("80").toList))) =
      some ((("0.0.0.0").toList) ++ ':' ::
        (("80").toList).takeWhile (fun d => decide (d ≠ '/'))) :=
  ⟨⟨by decide, by decide⟩,
   claim_C4_default_bind_and_port_conflicts.1 (("80").toList) (("80").toList)
     (by decide) (by decide) (by decide) (by decide)⟩

/-! ## Lemmas about substring tests and two-character splits -/

theorem not_infix2_no_first {a b : Char} {l : JStr} (h : ∀ x ∈ l, x ≠ a) :
    ¬ ([a, b] <:+: l) := by
  induction l with
  | nil => simp
  | cons c rest ih =>
      rw [List.infix_cons_iff]
      rintro (hpre | hinf)
      · rw [List.cons_prefix_cons] at hpre
        exact h c (List.mem_cons_self _ _) hpre.1.symm
      · exact ih (fun x hx => h x (List.mem_cons.mpr (Or.inr hx))) hinf

theorem not_infix2_no_second {a b : Char} {l : JStr} (h : b ∉ l) :
    ¬ ([a, b] <:+: l) := by
  intro hinf
  exact h (hinf.subset (by simp))

theorem infix2_of_middle (a b : Char) (x y : JStr) : [a, b] <:+: x ++ a :: b :: y :=
  ⟨x, y, by simp⟩

theorem infix2_append_iff {a b : Char} {x y : JStr} (h : ∀ c ∈ x, c ≠ a) :
    ([a, b] <:+: x ++ y) ↔ ([a, b] <:+: y) := by
  induction x with
  | nil => simp
  | cons c rest ih =>
      simp only [List.cons_append]
      rw [List.infix_cons_iff]
      constructor
      · rintro (hpre | hinf)
        · rw [List.cons_prefix_cons] at hpre
          exact absurd hpre.1.symm (h c (List.mem_cons_self _ _))
        · exact (ih (fun x hx => h x (List.mem_cons.mpr (Or.inr hx)))).mp hinf
      · intro hy
        exact Or.inr ((ih (fun x hx => h x (List.mem_cons.mpr (Or.inr hx)))).mpr hy)

theorem infix1_iff_mem {a : Char} {l : JStr} : ([a] <:+: l) ↔ a ∈ l := by
  induction l with
  | nil => simp
  | cons c rest ih =>
      rw [List.infix_cons_iff]
      constructor
      · rintro (hpre | hinf)
        · rw [List.cons_prefix_cons] at hpre
          exact List.mem_cons.mpr (Or.inl hpre.1)
        · exact List.mem_cons.mpr (Or.inr (ih.mp hinf))
      · intro hmem
        rcases List.mem_cons.mp hmem with hmem | hmem
        · subst hmem
          exact Or.inl (by simp)
        · exact Or.inr (ih.mpr hmem)

theorem splitOn2_ne_nil (a b : Char) (l : JStr) : splitOn2 a b l ≠ [] := by
  match l with
  | [] => simp [splitOn2]
  | [c] => simp [splitOn2]
  | c :: d :: rest =>
      rw [splitOn2]
      split
      · simp
      · unfold consHead
        split <;> simp

theorem splitOn2_no_sep {a b : Char} {l : JStr} (h : ¬ ([a, b] <:+: l)) :
    splitOn2 a b l = [l] := by
  induction l with
  | nil => rfl
  | cons c rest ih =>
      cases rest with
      | nil => rfl
      | cons d rest2 =>
          rw [splitOn2]
          rw [if_neg ?notsep]
          case notsep =>
            rintro ⟨hca, hdb⟩
            subst hca hdb
            exact h (infix2_of_middle c d [] rest2)
          have hrest : ¬ ([a, b] <:+: d :: rest2) := by
            intro hinf
            exact h (List.infix_cons_iff.mpr (Or.inr hinf))
          rw [ih hrest]
          rfl

theorem splitOn2_append_sep {a b : Char} {x y : JStr} (hab : a ≠ b)
    (hx : ¬ ([a, b] <:+: x)) :
    splitOn2 a b (x ++ a :: b :: y) = x :: splitOn2 a b y := by
  induction x with
  | nil =>
      simp only [List.nil_append]
      rw [splitOn2, if_pos ⟨rfl, rfl⟩]
  | cons c rest ih =>
      cases rest with
      | nil =>
          simp only [List.singleton_append, List.cons_append, List.nil_append]
          rw [splitOn2]
          rw [if_neg (by rintro ⟨hca, hab2⟩; exact hab hab2)]
          rw [splitOn2, if_pos ⟨rfl, rfl⟩]
          rfl
      | cons e rest2 =>
          simp only [List.cons_append]
          rw [splitOn2]
          rw [if_neg ?notsep]
          case notsep =>
            rintro ⟨hca, heb⟩
            subst hca heb
            exact hx (infix2_of_middle c e [] rest2)
          have hrest : ¬ ([a, b] <:+: e :: rest2) := by
            intro hinf
            exact hx (List.infix_cons_iff.mpr (Or.inr hinf))
          have hmid := ih hrest
          simp only [List.cons_append] at hmid
          rw [hmid]
          rfl

/-! ## C3: the substitution operators -/

theorem substituteVariable_colon_dash (env : List (JStr × JStr)) (X d : JStr)
    (hX : ∀ c ∈ X, c ≠ ':' ∧ c ≠ '-' ∧ c ≠ '?') (hd1 : ':' ∉ d) (hd2 : '-' ∉ d) :
    substituteVariable (X ++ ':' :: '-' :: d) env =
      .ok (match List.lookup X env with
           | some w => if w.isEmpty then d else w
           | none => d) := by
  have hXc : ∀ c ∈ X, c ≠ ':' := fun c hc => (hX c hc).1
  have hregion : ∀ x ∈ '-' :: d, x ≠ ':' := by
    intro x hx
    rcases List.mem_cons.mp hx with h | h
    · subst h; decide
    · intro he; exact hd1 (he ▸ h)
  have hc1 : ¬ ([':', '?'] <:+: (X ++ ':' :: '-' :: d)) := by
    rw [infix2_append_iff hXc]
    rw [List.infix_cons_iff]
    rintro (hpre | hinf)
    · rw [List.cons_prefix_cons] at hpre
      rw [List.cons_prefix_cons] at hpre
      exact absurd hpre.2.1 (by decide)
    · exact not_infix2_no_first hregion hinf
  have hc3 : [':', '-'] <:+: (X ++ ':' :: '-' :: d) := infix2_of_middle ':' '-' X d
  have hsplit : splitOn2 ':' '-' (X ++ ':' :: '-' :: d) = X :: splitOn2 ':' '-' d :=
    splitOn2_append_sep (by decide) (not_infix2_no_first hXc)
  have hsplitd : splitOn2 ':' '-' d = [d] :=
    splitOn2_no_sep (not_infix2_no_first (fun x hx he => hd1 (he ▸ hx)))
  rw [substituteVariable]
  rw [if_neg hc1]
  rw [if_neg (by rintro ⟨h1, h2, h3⟩; exact h2 hc3)]
  rw [if_pos hc3]
  rw [hsplit, hsplitd]
  cases hw : List.lookup X env with
  | none => simp [hw]
  | some w =>
      by_cases hwe : w.isEmpty
      · simp [hw, hwe, List.isEmpty_iff.mp hwe]
      · simp only [List.headD_cons, List.head?_cons]
        simp [hw, hwe, fun h => hwe (List.isEmpty_iff.mpr h)]

theorem substituteVariable_dash (env : List (JStr × JStr)) (X d : JStr)
    (hX : ∀ c ∈ X, c ≠ ':' ∧ c ≠ '-' ∧ c ≠ '?') (hd1 : ':' ∉ d) (hd2 : '-' ∉ d) :
    substituteVariable (X ++ '-' :: d) env =
      .ok (match List.lookup X env with
           | some w => w
           | none => d) := by
  have hXc : ∀ c ∈ X, c ≠ ':' := fun c hc => (hX c hc).1
  have hXd : '-' ∉ X := fun hmem => (hX '-' hmem).2.1 rfl
  have hregion : ∀ x ∈ '-' :: d, x ≠ ':' := by
    intro x hx
    rcases List.mem_cons.mp hx with h | h
    · subst h; decide
    · intro he; exact hd1 (he ▸ h)
  have hc1 : ¬ ([':', '?'] <:+: (X ++ '-' :: d)) := by
    rw [infix2_append_iff hXc]
    exact not_infix2_no_first hregion
  have hc4 : ['-'] <:+: (X ++ '-' :: d) := by
    rw [infix1_iff_mem]
    simp
  have hc2 : ¬ ((['?'] : JStr) <:+: (X ++ '-' :: d) ∧
      ¬ (([':', '-'] : JStr) <:+: (X ++ '-' :: d)) ∧
      ¬ ((['-'] : JStr) <:+: (X ++ '-' :: d))) := by
    rintro ⟨h1, h2, h3⟩
    exact h3 hc4
  have hc3 : ¬ ([':', '-'] <:+: (X ++ '-' :: d)) := by
    rw [infix2_append_iff hXc]
    exact not_infix2_no_first hregion
  have hsplit : splitOn1 '-' (X ++ '-' :: d) = X :: splitOn1 '-' d :=
    splitOn1_append_sep hXd
  have hsplitd : splitOn1 '-' d = [d] := splitOn1_no_sep hd2
  rw [substituteVariable]
  rw [if_neg hc1]
  rw [if_neg hc2]
  rw [if_neg hc3]
  rw [if_pos hc4]
  rw [hsplit, hsplitd]
  cases hw : List.lookup X env with
  | none => simp [hw]
  | some w => simp [hw]

theorem substituteVariable_colon_question (env : List (JStr × JStr)) (X m : JStr)
    (hX : ∀ c ∈ X, c ≠ ':' ∧ c ≠ '-' ∧ c ≠ '?') (hm0 : m ≠ []) (hm1 : '?' ∉ m) :
    substituteVariable (X ++ ':' :: '?' :: m) env =
      (match List.lookup X env with
       | some w => if w.isEmpty then .error m else .ok w
       | none => .error m) := by
  have hXc : ∀ c ∈ X, c ≠ ':' := fun c hc => (hX c hc).1
  have hc1 : [':', '?'] <:+: (X ++ ':' :: '?' :: m) := infix2_of_middle ':' '?' X m
  have hsplit : splitOn2 ':' '?' (X ++ ':' :: '?' :: m) = X :: splitOn2 ':' '?' m :=
    splitOn2_append_sep (by decide) (not_infix2_no_first hXc)
  have hsplitm : splitOn2 ':' '?' m = [m] :=
    splitOn2_no_sep (not_infix2_no_second hm1)
  rw [substituteVariable]
  rw [if_pos hc1]
  rw [hsplit, hsplitm]
  cases hw : List.lookup X env with
  | none => simp [hw, hm0]
  | some w =>
      by_cases hwe : w.isEmpty
      · simp [hw, hwe, List.isEmpty_iff.mp hwe, hm0]
      · simp [hw, hwe, hm0, fun h => hwe (List.isEmpty_iff.mpr h)]

theorem substituteVariable_question (env : List (JStr × JStr)) (X m : JStr)
    (hX : ∀ c ∈ X, c ≠ ':' ∧ c ≠ '-' ∧ c ≠ '?') (hm0 : m ≠ []) (hm1 : '?' ∉ m)
    (hm2 : '-' ∉ m) :
    substituteVariable (X ++ '?' :: m) env =
      (match List.lookup X env with
       | some w => .ok w
       | none => .error m) := by
  have hXc : ∀ c ∈ X, c ≠ ':' := fun c hc => (hX c hc).1
  have hXq : '?' ∉ X := fun hmem => (hX '?' hmem).2.2 rfl
  have hXd : '-' ∉ X := fun hmem => (hX '-' hmem).2.1 rfl
  have hc1 : ¬ ([':', '?'] <:+: (X ++ '?' :: m)) := by
    rw [infix2_append_iff hXc]
    rw [List.infix_cons_iff]
    rintro (hpre | hinf)
    · rw [List.cons_prefix_cons] at hpre
      exact absurd hpre.1 (by decide)
    · exact not_infix2_no_second hm1 hinf
  have hc2a : (['?'] : JStr) <:+: (X ++ '?' :: m) := by
    rw [infix1_iff_mem]
    simp
  have hc2b : ¬ ([':', '-'] <:+: (X ++ '?' :: m)) := by
    rw [infix2_append_iff hXc]
    rw [List.infix_cons_iff]
    rintro (hpre | hinf)
    · rw [List.cons_prefix_cons] at hpre
      exact absurd hpre.1 (by decide)
    · exact not_infix2_no_second hm2 hinf
  have hc2c : ¬ ((['-'] : JStr) <:+: (X ++ '?' :: m)) := by
    rw [infix1_iff_mem]
    intro hmem
    rcases List.mem_append.mp hmem with h | h
    · exact hXd h
    · rcases List.mem_cons.mp h with h | h
      · exact absurd h (by decide)
      · exact hm2 h
  have hsplit : splitOn1 '?' (X ++ '?' :: m) = X :: splitOn1 '?' m :=
    splitOn1_append_sep hXq
  have hsplitm : splitOn1 '?' m = [m] := splitOn1_no_sep hm1
  rw [substituteVariable]
  rw [if_neg hc1]
  rw [if_pos ⟨hc2a, hc2b, hc2c⟩]
  rw [hsplit, hsplitm]
  cases hw : List.lookup X env with
  | none => simp [hw, hm0]
  | some w => simp [hw, hm0]

/-- C3 (amended): with the operand strings free of the operator characters
(variable name free of `:`, `-`, `?`; default free of `:` and `-`; failure
message nonempty and free of `?`, and additionally of `-` for the plain
`?` form), the four substitution operators behave as specified, following
the priority order `:?`, plain `?` without any `-`, `:-`, bare `-`. -/
theorem claim_C3_substitution_operators (env : List (JStr × JStr)) (X : JStr)
    (hX : ∀ c ∈ X, c ≠ ':' ∧ c ≠ '-' ∧ c ≠ '?') :
    (∀ d : JStr, ':' ∉ d → '-' ∉ d →
      substituteVariable (X ++ ':' :: '-' :: d) env =
        .ok (match List.lookup X env with
             | some w => if w.isEmpty then d else w
             | none => d)) ∧
    (∀ d : JStr, ':' ∉ d → '-' ∉ d →
      substituteVariable (X ++ '-' :: d) env =
        .ok (match List.lookup X env with
             | some w => w
             | none => d)) ∧
    (∀ m : JStr, m ≠ [] → '?' ∉ m →
      substituteVariable (X ++ ':' :: '?' :: m) env =
        (match List.lookup X env with
         | some w => if w.isEmpty then .error m else .ok w
         | none => .error m)) ∧
    (∀ m : JStr, m ≠ [] → '?' ∉ m → '-' ∉ m →
      substituteVariable (X ++ '?' :: m) env =
        (match List.lookup X env with
         | some w => .ok w
         | none => .error m)) :=
  ⟨fun d h1 h2 => substituteVariable_colon_dash env X d hX h1 h2,
   fun d h1 h2 => substituteVariable_dash env X d hX h1 h2,
   fun m h0 h1 => substituteVariable_colon_question env X m hX h0 h1,
   fun m h0 h1 h2 => substituteVariable_question env X m hX h0 h1 h2⟩

/-- C3 counterexample to the unrestricted claim: with the empty message,
`$\x7bX:?\x7d` does not fail at all (an empty error message is falsy), and a
default containing `-` is cut at its first `-` rather than used exactly. -/
theorem claim_C3_substitution_operators_counterexample :
    substituteVariable (("X:?").toList) [] = .ok [] ∧
    substituteVariable (("X:?").toList) [] ≠ .error [] ∧
    substituteVariable (("X-a-b").toList) [] = .ok (("a").toList) ∧
    substituteVariable (("X-a-b").toList) [] ≠ .ok (("a-b").toList) :=
  ⟨by decide, by decide, by decide, by decide⟩

theorem claim_C3_substitution_operators_witness :
    (∀ c ∈ (("PORT").toList), c ≠ ':' ∧ c ≠ '-' ∧ c ≠ '?') ∧
    substituteVariable ((("PORT").toList) ++ ':' :: '-' :: (("8080").toList)) [] =
      .ok (("8080").toList) := by
  refine ⟨by decide, ?_⟩
  have h := (claim_C3_substitution_operators [] (("PORT").toList) (by decide)).1
    (("8080").toList) (by decide) (by decide)
  simpa using h

/-! ## C9: self-merge of a service -/

mutual

/-- Well-formedness of a modelled JS value: object keys are duplicate-free
at every level (JS objects cannot hold duplicate keys). -/
def valueWf : Value → Bool
  | .vObj fields => decide ((fields.map Prod.fst).Nodup) && fieldsWf fields
  | .vArr items => listWf items
  | _ => true

def listWf : List Value → Bool
  | [] => true
  | v :: rest => valueWf v && listWf rest

def fieldsWf : List (JStr × Value) → Bool
  | [] => true
  | (_, v) :: rest => valueWf v && fieldsWf rest

end

theorem fieldsWf_mem {fields : List (JStr × Value)} {k : JStr} {v : Value}
    (hwf : fieldsWf fields = true) (hmem : (k, v) ∈ fields) : valueWf v = true := by
  induction fields with
  | nil => simp at hmem
  | cons p rest ih =>
      obtain ⟨k2, w⟩ := p
      rw [fieldsWf] at hwf
      rcases List.mem_cons.mp hmem with h | h
      · injection h with h1 h2
        subst h2
        simp only [Bool.and_eq_true] at hwf
        exact hwf.1
      · simp only [Bool.and_eq_true] at hwf
        exact ih hwf.2 h

theorem valSize_mem_fields {fields : List (JStr × Value)} {k : JStr} {v : Value}
    (hmem : (k, v) ∈ fields) : valSize v ≤ valSizeFields fields := by
  induction fields with
  | nil => simp at hmem
  | cons p rest ih =>
      obtain ⟨k2, w⟩ := p
      rw [valSizeFields]
      rcases List.mem_cons.mp hmem with h | h
      · injection h with h1 h2
        subst h2
        omega
      · have := ih h
        omega

theorem mem_map_fst {fields : List (JStr × Value)} {k : JStr} {v : Value}
    (hmem : (k, v) ∈ fields) : k ∈ fields.map Prod.fst :=
  List.mem_map.mpr ⟨(k, v), hmem, rfl⟩

theorem objGet_of_mem_nodup {fields : List (JStr × Value)} {k : JStr} {v : Value}
    (hmem : (k, v) ∈ fields) (hnd : (fields.map Prod.fst).Nodup) :
    objGet fields k = some v := by
  induction fields with
  | nil => simp at hmem
  | cons p rest ih =>
      obtain ⟨k2, w⟩ := p
      simp only [List.map_cons, List.nodup_cons] at hnd
      rcases List.mem_cons.mp hmem with h | h
      · injection h with h1 h2
        subst h1
        subst h2
        simp [objGet]
      · have hne : k2 ≠ k := fun he => hnd.1 (he ▸ mem_map_fst h)
        rw [objGet, if_neg hne]
        exact ih h hnd.2

theorem objSet_of_get {fields : List (JStr × Value)} {k : JStr} {v : Value}
    (h : objGet fields k = some v) : objSet fields k v = fields := by
  induction fields with
  | nil => simp [objGet] at h
  | cons p rest ih =>
      obtain ⟨k2, w⟩ := p
      by_cases hk : k2 = k
      · rw [objGet, if_pos hk] at h
        injection h with h
        subst h
        rw [objSet, if_pos hk]
      · rw [objGet, if_neg hk] at h
        rw [objSet, if_neg hk, ih h]

theorem mem_objSet_of_mem_ne {fields : List (JStr × Value)} {k k0 : JStr}
    {v v0 : Value} (hmem : (k, v) ∈ fields) (hne : k ≠ k0) :
    (k, v) ∈ objSet fields k0 v0 := by
  induction fields with
  | nil => simp at hmem
  | cons p rest ih =>
      obtain ⟨k2, w⟩ := p
      by_cases hk : k2 = k0
      · rw [objSet, if_pos hk]
        rcases List.mem_cons.mp hmem with h | h
        · injection h with h1 h2
          subst h1
          exact absurd hk hne
        · exact List.mem_cons.mpr (Or.inr h)
      · rw [objSet, if_neg hk]
        rcases List.mem_cons.mp hmem with h | h
        · exact List.mem_cons.mpr (Or.inl h)
        · exact List.mem_cons.mpr (Or.inr (ih h))

theorem objSet_map_fst_of_get {fields : List (JStr × Value)} {k : JStr} {w v : Value}
    (h : objGet fields k = some w) :
    (objSet fields k v).map Prod.fst = fields.map Prod.fst := by
  induction fields with
  | nil => simp [objGet] at h
  | cons p rest ih =>
      obtain ⟨k2, w2⟩ := p
      by_cases hk : k2 = k
      · rw [objSet, if_pos hk]
        simp
      · rw [objGet, if_neg hk] at h
        rw [objSet, if_neg hk]
        simp only [List.map_cons]
        rw [ih h]

theorem deepMergeGo_self (fields : List (JStr × Value))
    (hnd : (fields.map Prod.fst).Nodup)
    (hIH : ∀ (k : JStr) (g : List (JStr × Value)), (k, Value.vObj g) ∈ fields →
      deepMerge (.vObj g) (.vObj g) = .vObj g) :
    ∀ pending, (∀ p ∈ pending, p ∈ fields) → deepMergeGo pending fields = fields := by
  intro pending
  induction pending with
  | nil => intro _; rw [deepMergeGo]
  | cons p rest ih =>
      intro hp
      obtain ⟨k, v⟩ := p
      have hmem : (k, v) ∈ fields := hp (k, v) (List.mem_cons_self _ _)
      have hget : objGet fields k = some v := objGet_of_mem_nodup hmem hnd
      cases v with
      | vObj g =>
          rw [deepMergeGo]
          rw [hget]
          simp only [Option.getD_some]
          rw [hIH k g hmem]
          rw [objSet_of_get hget]
          exact ih (fun q hq => hp q (List.mem_cons.mpr (Or.inr hq)))
      | vNull =>
          rw [deepMergeGo]
          · rw [objSet_of_get hget]
            exact ih (fun q hq => hp q (List.mem_cons.mpr (Or.inr hq)))
          · intro g hcontra
            cases hcontra
      | vBool b =>
          rw [deepMergeGo]
          · rw [objSet_of_get hget]
            exact ih (fun q hq => hp q (List.mem_cons.mpr (Or.inr hq)))
          · intro g hcontra
            cases hcontra
      | vNum n =>
          rw [deepMergeGo]
          · rw [objSet_of_get hget]
            exact ih (fun q hq => hp q (List.mem_cons.mpr (Or.inr hq)))
          · intro g hcontra
            cases hcontra
      | vStr s =>
          rw [deepMergeGo]
          · rw [objSet_of_get hget]
            exact ih (fun q hq => hp q (List.mem_cons.mpr (Or.inr hq)))
          · intro g hcontra
            cases hcontra
      | vArr items =>
          rw [deepMergeGo]
          · rw [objSet_of_get hget]
            exact ih (fun q hq => hp q (List.mem_cons.mpr (Or.inr hq)))
          · intro g hcontra
            cases hcontra

/-- A well-formed mapping deep-merged with itself is unchanged. -/
theorem deepMerge_self_obj :
    ∀ (fields : List (JStr × Value)), valueWf (.vObj fields) = true →
    deepMerge (.vObj fields) (.vObj fields) = .vObj fields := by
  have main : ∀ (N : Nat) (fields : List (JStr × Value)),
      valSize (.vObj fields) ≤ N → valueWf (.vObj fields) = true →
      deepMerge (.vObj fields) (.vObj fields) = .vObj fields := by
    intro N
    induction N with
    | zero => intro fields hsz _; have := valSize_pos (.vObj fields); omega
    | succ N ih =>
        intro fields hsz hwf
        rw [valueWf, Bool.and_eq_true, decide_eq_true_eq] at hwf
        rw [deepMerge]
        rw [if_neg (by simp [Value.truthy, Value.isObjType])]
        rw [toSpread]
        rw [deepMergeGo_self fields hwf.1 ?ihfields fields (fun p hp => hp)]
        case ihfields =>
          intro k g hmem
          apply ih
          · have h1 := valSize_mem_fields hmem
            rw [valSize] at hsz ⊢
            rw [valSize] at h1
            omega
          · exact fieldsWf_mem hwf.2 hmem
  intro fields hwf
  exact main (valSize (.vObj fields)) fields le_rfl hwf

/-- The value the merge loop stores for a key, in terms of the strategy. -/
def mergedFieldValue (k : JStr) (cur : Option Value) (v : Value) : Value :=
  match mergeStrategy k with
  | .concat => concatValue cur v
  | .merge => mergeValue cur v
  | .override => v

theorem mergeSvcGo_get_not_mem :
    ∀ (pending result : List (JStr × Value)) (k : JStr),
    k ∉ pending.map Prod.fst →
    objGet (mergeSvcGo pending result) k = objGet result k := by
  intro pending
  induction pending with
  | nil => intro result k _; rw [mergeSvcGo]
  | cons p rest ih =>
      intro result k hk
      obtain ⟨k2, v⟩ := p
      simp only [List.map_cons, List.mem_cons] at hk
      push_neg at hk
      have hne : k2 ≠ k := fun he => hk.1 he.symm
      rw [mergeSvcGo]
      cases hstrat : mergeStrategy k2 <;>
        simp only [hstrat] <;>
        rw [ih _ k hk.2, objGet_objSet_ne _ _ hne]

theorem mergeSvcGo_get_of_mem :
    ∀ (pending result : List (JStr × Value)) (k : JStr) (v : Value),
    (k, v) ∈ pending → (pending.map Prod.fst).Nodup →
    objGet (mergeSvcGo pending result) k =
      some (mergedFieldValue k (objGet result k) v) := by
  intro pending
  induction pending with
  | nil => intro result k v hmem _; simp at hmem
  | cons p rest ih =>
      intro result k v hmem hnd
      obtain ⟨k2, w⟩ := p
      simp only [List.map_cons, List.nodup_cons] at hnd
      rcases List.mem_cons.mp hmem with h | h
      · injection h with h1 h2
        subst h1
        subst h2
        have hrest : k ∉ rest.map Prod.fst := hnd.1
        rw [mergeSvcGo, mergedFieldValue.eq_def]
        cases hstrat : mergeStrategy k <;>
          simp only [hstrat] <;>
          rw [mergeSvcGo_get_not_mem _ _ _ hrest, objGet_objSet_self]
      · have hne : k2 ≠ k := fun he => hnd.1 (he ▸ mem_map_fst h)
        rw [mergeSvcGo]
        cases hstrat : mergeStrategy k2 <;>
          simp only [] <;>
          rw [ih _ k v h hnd.2, objGet_objSet_ne _ _ hne]

theorem objGet_none_iff {fields : List (JStr × Value)} {k : JStr} :
    objGet fields k = none ↔ k ∉ fields.map Prod.fst := by
  induction fields with
  | nil => simp [objGet]
  | cons p rest ih =>
      obtain ⟨k2, w⟩ := p
      by_cases hk : k2 = k
      · subst hk
        rw [objGet, if_pos rfl]
        simp only [List.map_cons, List.mem_cons]
        constructor
        · intro h; exact Option.noConfusion h
        · intro h; exact absurd (Or.inl trivial) h
      · rw [objGet, if_neg hk]
        simp only [List.map_cons, List.mem_cons]
        rw [ih]
        constructor
        · rintro hnone (h | h)
          · exact hk h.symm
          · exact hnone h
        · intro hnot h
          exact hnot (Or.inr h)

theorem normalizeDependsOn_obj (g : List (JStr × Value)) :
    normalizeDependsOn (.vObj g) = .vObj g := by
  rw [normalizeDependsOn]
  · rfl
  · intro items hcontra
    cases hcontra

theorem mergeStrategy_dependsOn : mergeStrategy dependsOnKey = .merge := by decide

/-- C9 (amended): merging a well-formed service onto itself doubles every
concatenate-strategy list, leaves every deep-merge-strategy field whose
value is a mapping structurally unchanged, and leaves every
override-strategy field unchanged.  (Array-valued deep-merge fields are
not preserved: `depends_on` arrays are first normalized to object form —
see the counterexample.) -/
theorem claim_C9_self_merge (fields : List (JStr × Value))
    (hwf : valueWf (.vObj fields) = true) :
    (∀ k l, mergeStrategy k = .concat → objGet fields k = some (.vArr l) →
      propGet (mergeServiceConfigs (.vObj fields) (.vObj fields)) k =
        some (.vArr (l ++ l)) ∧ (l ++ l).length = 2 * l.length) ∧
    (∀ k g, mergeStrategy k = .merge → objGet fields k = some (.vObj g) →
      propGet (mergeServiceConfigs (.vObj fields) (.vObj fields)) k =
        some (.vObj g)) ∧
    (∀ k, mergeStrategy k = .override →
      propGet (mergeServiceConfigs (.vObj fields) (.vObj fields)) k =
        objGet fields k) := by
  have hwf2 := hwf
  rw [valueWf, Bool.and_eq_true, decide_eq_true_eq] at hwf2
  obtain ⟨hnd, hfw⟩ := hwf2
  have hr : mergeServiceConfigs (.vObj fields) (.vObj fields) =
      .vObj (mergeSvcGo
        (if truthyOpt (objGet fields dependsOnKey) then
          objSet fields dependsOnKey
            (normalizeDependsOn ((objGet fields dependsOnKey).getD .vNull))
         else fields)
        (if truthyOpt (objGet fields dependsOnKey) then
          objSet fields dependsOnKey
            (normalizeDependsOn ((objGet fields dependsOnKey).getD .vNull))
         else fields)) := rfl
  by_cases hdep : truthyOpt (objGet fields dependsOnKey) = true
  case neg =>
    rw [if_neg hdep] at hr
    rw [hr]
    refine ⟨?_, ?_, ?_⟩
    · intro k l hstrat hget
      rw [propGet]
      rw [mergeSvcGo_get_of_mem fields fields k (.vArr l) (objGet_mem hget) hnd]
      rw [mergedFieldValue.eq_def, hstrat]
      rw [hget]
      constructor
      · simp [concatValue, Value.truthy, spreadToList]
      · simp [Nat.two_mul]
    · intro k g hstrat hget
      rw [propGet]
      rw [mergeSvcGo_get_of_mem fields fields k (.vObj g) (objGet_mem hget) hnd]
      rw [mergedFieldValue.eq_def, hstrat]
      rw [hget]
      simp only [mergeValue, Value.truthy, if_true]
      rw [deepMerge_self_obj g (fieldsWf_mem hfw (objGet_mem hget))]
    · intro k hstrat
      rw [propGet]
      cases hget : objGet fields k with
      | none =>
          rw [mergeSvcGo_get_not_mem fields fields k (objGet_none_iff.mp hget)]
          exact hget
      | some v =>
          rw [mergeSvcGo_get_of_mem fields fields k v (objGet_mem hget) hnd]
          rw [mergedFieldValue.eq_def, hstrat]
  case pos =>
    rcases hdv : objGet fields dependsOnKey with _ | dv
    · rw [hdv] at hdep
      simp [truthyOpt] at hdep
    · rw [if_pos hdep, hdv] at hr
      simp only [Option.getD_some] at hr
      have hkeys : (objSet fields dependsOnKey (normalizeDependsOn dv)).map Prod.fst =
          fields.map Prod.fst := objSet_map_fst_of_get hdv
      have hnd2 : ((objSet fields dependsOnKey (normalizeDependsOn dv)).map Prod.fst).Nodup := by
        rw [hkeys]; exact hnd
      rw [hr]
      refine ⟨?_, ?_, ?_⟩
      · intro k l hstrat hget
        have hkne : k ≠ dependsOnKey := by
          intro he
          rw [he] at hstrat
          rw [mergeStrategy_dependsOn] at hstrat
          cases hstrat
        rw [propGet]
        rw [mergeSvcGo_get_of_mem _ _ k (.vArr l)
          (mem_objSet_of_mem_ne (objGet_mem hget) hkne) hnd2]
        rw [mergedFieldValue.eq_def, hstrat]
        rw [objGet_objSet_ne _ _ (fun he => hkne he.symm)]
        rw [hget]
        constructor
        · simp [concatValue, Value.truthy, spreadToList]
        · simp [Nat.two_mul]
      · intro k g hstrat hget
        by_cases hkd : k = dependsOnKey
        · subst hkd
          rw [hget] at hdv
          injection hdv with hdv2
          subst hdv2
          have hnorm : normalizeDependsOn (Value.vObj g) = .vObj g := normalizeDependsOn_obj g
          rw [hnorm]
          rw [objSet_of_get hget]
          rw [propGet]
          rw [mergeSvcGo_get_of_mem fields fields dependsOnKey (.vObj g)
            (objGet_mem hget) hnd]
          rw [mergedFieldValue.eq_def, hstrat]
          rw [hget]
          simp only [mergeValue, Value.truthy, if_true]
          rw [deepMerge_self_obj g (fieldsWf_mem hfw (objGet_mem hget))]
        · rw [propGet]
          rw [mergeSvcGo_get_of_mem _ _ k (.vObj g)
            (mem_objSet_of_mem_ne (objGet_mem hget) hkd) hnd2]
          rw [mergedFieldValue.eq_def, hstrat]
          rw [objGet_objSet_ne _ _ (fun he => hkd he.symm)]
          rw [hget]
          simp only [mergeValue, Value.truthy, if_true]
          rw [deepMerge_self_obj g (fieldsWf_mem hfw (objGet_mem hget))]
      · intro k hstrat
        have hkne : k ≠ dependsOnKey := by
          intro he
          rw [he] at hstrat
          rw [mergeStrategy_dependsOn] at hstrat
          cases hstrat
        rw [propGet]
        cases hget : objGet fields k with
        | none =>
            rw [mergeSvcGo_get_not_mem _ _ k ?notin]
            case notin =>
              rw [hkeys]
              exact objGet_none_iff.mp hget
            rw [objGet_objSet_ne _ _ (fun he => hkne he.symm)]
            exact hget
        | some v =>
            rw [mergeSvcGo_get_of_mem _ _ k v
              (mem_objSet_of_mem_ne (objGet_mem hget) hkne) hnd2]
            rw [mergedFieldValue.eq_def, hstrat]

/-- C9 counterexample: self-merge is NOT idempotent on every deep-merge
field.  `depends_on` in short array form is normalized to the
mapping-of-condition object before the merge loop runs, so the merged
service differs structurally from the input. -/
theorem claim_C9_self_merge_counterexample :
    mergeServiceConfigs
        (.vObj [(dependsOnKey, .vArr [.vStr (("db").toList)])])
        (.vObj [(dependsOnKey, .vArr [.vStr (("db").toList)])]) ≠
      .vObj [(dependsOnKey, .vArr [.vStr (("db").toList)])] ∧
    propGet (mergeServiceConfigs
        (.vObj [(dependsOnKey, .vArr [.vStr (("db").toList)])])
        (.vObj [(dependsOnKey, .vArr [.vStr (("db").toList)])])) dependsOnKey =
      some (.vObj [(("db").toList,
        .vObj [(("condition").toList, .vStr (("service_started").toList))])]) := by
  have hval : mergeServiceConfigs
      (.vObj [(dependsOnKey, .vArr [.vStr (("db").toList)])])
      (.vObj [(dependsOnKey, .vArr [.vStr (("db").toList)])]) =
      .vObj [(dependsOnKey, .vObj [(("db").toList,
        .vObj [(("condition").toList, .vStr (("service_started").toList))])])] := by
    simp [mergeServiceConfigs, toSpread, propGet, objGet, truthyOpt, Value.truthy,
      normalizeDependsOn, keyString, objSet, mergeSvcGo, mergeStrategy, mergeValue,
      deepMerge, deepMergeGo, concatFields, mergeFields, dependsOnKey, isObjType,
      isArr, isObjNotArr]
  constructor
  · rw [hval]
    intro hcontra
    injection hcontra with h2
    simp at h2
  · rw [hval]
    rfl

/-- Concrete well-formed service used to witness the self-merge theorem. -/
def selfMergeSample : List (JStr × Value) :=
  [(("image").toList, .vStr (("nginx").toList)),
   (("ports").toList, .vArr [.vStr (("80:80").toList)]),
   (("environment").toList, .vObj [(("A").toList, .vStr (("1").toList))])]

theorem claim_C9_self_merge_witness :
    valueWf (.vObj selfMergeSample) = true ∧
    propGet (mergeServiceConfigs (.vObj selfMergeSample) (.vObj selfMergeSample))
        (("ports").toList) =
      some (.vArr [.vStr (("80:80").toList), .vStr (("80:80").toList)]) ∧
    propGet (mergeServiceConfigs (.vObj selfMergeSample) (.vObj selfMergeSample))
        (("environment").toList) =
      some (.vObj [(("A").toList, .vStr (("1").toList))]) ∧
    propGet (mergeServiceConfigs (.vObj selfMergeSample) (.vObj selfMergeSample))
        (("image").toList) =
      some (.vStr (("nginx").toList)) := by
  have h := claim_C9_self_merge selfMergeSample (by decide)
  refine ⟨by decide, ?_, ?_, ?_⟩
  · exact (h.1 (("ports").toList) [.vStr (("80:80").toList)] (by decide) (by rfl)).1
  · exact h.2.1 (("environment").toList) [(("A").toList, .vStr (("1").toList))]
      (by decide) (by rfl)
  · rw [h.2.2 (("image").toList) (by decide)]
    rfl

/-! ## C7: the resolved output never carries a truthy extends field -/

theorem mergeServiceConfigs_eq (base override : Value) :
    mergeServiceConfigs base override = .vObj (mergeSvcGo
      (if truthyOpt (propGet override dependsOnKey) then
        objSet (toSpread override) dependsOnKey
          (normalizeDependsOn ((propGet override dependsOnKey).getD .vNull))
       else toSpread override)
      (if truthyOpt (propGet base dependsOnKey) then
        objSet (toSpread base) dependsOnKey
          (normalizeDependsOn ((propGet base dependsOnKey).getD .vNull))
       else toSpread base)) := rfl

theorem dependsOn_ne_extends : dependsOnKey ≠ extendsKey := by decide

/-- The merge loop never introduces an `extends` entry: when the override
side carries none, the merged service's `extends` is the base's. -/
theorem mergeServiceConfigs_get_extends (base override : Value)
    (ho : propGet override extendsKey = none) :
    propGet (mergeServiceConfigs base override) extendsKey =
      propGet base extendsKey := by
  rw [mergeServiceConfigs_eq]
  rw [propGet]
  have hno : objGet
      (if truthyOpt (propGet override dependsOnKey) then
        objSet (toSpread override) dependsOnKey
          (normalizeDependsOn ((propGet override dependsOnKey).getD .vNull))
       else toSpread override) extendsKey = none := by
    by_cases hd : truthyOpt (propGet override dependsOnKey) = true
    · rw [if_pos hd, objGet_objSet_ne _ _ dependsOn_ne_extends,
        objGet_toSpread natDigits_ne_extendsKey, ho]
    · rw [if_neg hd, objGet_toSpread natDigits_ne_extendsKey, ho]
  rw [mergeSvcGo_get_not_mem _ _ _ (objGet_none_iff.mp hno)]
  by_cases hb : truthyOpt (propGet base dependsOnKey) = true
  · rw [if_pos hb, objGet_objSet_ne _ _ dependsOn_ne_extends,
      objGet_toSpread natDigits_ne_extendsKey]
  · rw [if_neg hb, objGet_toSpread natDigits_ne_extendsKey]

/-- A service whose `extends` is absent or falsy resolves to itself. -/
theorem resolveServiceExtends_ok_falsy (allServices : List (JStr × Value))
    (service : Value) (visited : List JStr) (r : Value)
    (hns : service ≠ .vNull)
    (hext : truthyOpt (propGet service extendsKey) = false)
    (h : resolveServiceExtends allServices service visited = .ok r) :
    r = service := by
  cases service
  case vNull => exact absurd rfl hns
  all_goals
    rw [resolveServiceExtends] at h
    · rw [hext] at h
      simp only [Bool.not_false, if_true] at h
      exact (Except.ok.inj h).symm
    · intro hc; cases hc
theorem resolveServiceExtends_extends_falsy :
    ∀ (n : Nat) (allServices : List (JStr × Value)) (service : Value)
      (visited : List JStr) (r : Value),
      unvisitedCount allServices visited < n →
      resolveServiceExtends allServices service visited = .ok r →
      truthyOpt (propGet r extendsKey) = false := by
  intro n
  induction n with
  | zero => intro _ _ _ _ hlt; omega
  | succ n ih =>
      intro allServices service visited r hlt h
      by_cases hext : truthyOpt (propGet service extendsKey) = true
      case neg =>
        simp only [Bool.not_eq_true] at hext
        have hns : service ≠ .vNull := by
          intro he
          subst he
          rw [resolveServiceExtends] at h
          exact absurd h (by simp)
        rw [resolveServiceExtends_ok_falsy allServices service visited r hns hext h]
        exact hext
      case pos =>
        cases service with
        | vObj fields =>
            rw [resolveServiceExtends] at h
            · simp only [hext, Bool.not_true, Bool.false_eq_true, if_false] at h
              split at h
              · exact absurd h (by simp)
              · rename_i hcyc
                split at h
                · exact absurd h (by simp)
                · rename_i extService hserv
                  split at h
                  · exact absurd h (by simp)
                  · rename_i htr
                    split at h
                    · exact absurd h (by simp)
                    · rename_i resolvedBase hrec
                      rw [← Except.ok.inj h]
                      rw [mergeServiceConfigs_get_extends _ _
                        (by rw [propGet]; exact objGet_objRemove_self _ _)]
                      have hdec := unvisitedCount_snoc_lt
                        (objGet_mem_keys hserv) hcyc
                      exact ih allServices extService _ resolvedBase
                        (by omega) hrec
            · intro hc; cases hc
        | vNull => simp [propGet, truthyOpt] at hext
        | vBool b => simp [propGet, truthyOpt] at hext
        | vNum m => simp [propGet, truthyOpt] at hext
        | vStr s => simp [propGet, truthyOpt] at hext
        | vArr items => simp [propGet, truthyOpt] at hext

theorem resolveAllGo_extends_falsy (allServices : List (JStr × Value)) :
    ∀ (entries acc resolved : List (JStr × Value)),
      (∀ k v, (k, v) ∈ acc → truthyOpt (propGet v extendsKey) = false) →
      resolveAllGo allServices entries acc = .ok resolved →
      ∀ k v, (k, v) ∈ resolved → truthyOpt (propGet v extendsKey) = false := by
  intro entries
  induction entries with
  | nil =>
      intro acc resolved hacc h
      rw [resolveAllGo] at h
      rw [← Except.ok.inj h]
      exact hacc
  | cons p rest ih =>
      intro acc resolved hacc h
      obtain ⟨name, svc⟩ := p
      rw [resolveAllGo] at h
      split at h
      · rename_i r hres
        refine ih (objSet acc name r) resolved ?_ h
        intro k v hmem
        rcases mem_objSet hmem with he | hin
        · rw [(Prod.mk.injEq _ _ _ _).mp he |>.2]
          exact resolveServiceExtends_extends_falsy
            (unvisitedCount allServices [] + 1) allServices svc [] r
            (by omega) hres
        · exact hacc k v hin
      · exact absurd h (by simp)

/-- C7: on every document accepted by the extends resolver, no service in
the output carries a truthy `extends` field.  (The strict reading "no
service carries an `extends` field at all" fails: a falsy `extends` value
such as `null` short-circuits resolution and the field survives verbatim —
see the counterexample.) -/
theorem claim_C7_extends_stripped (compose out : Value)
    (h : resolveAllExtends compose = .ok out) :
    ∀ name svc resolved, propGet out (("services").toList) = some (.vObj resolved) →
      (name, svc) ∈ resolved → truthyOpt (propGet svc extendsKey) = false := by
  intro name svc resolved hsvcs hmem
  rw [resolveAllExtends] at h
  by_cases hs : truthyOpt (propGet compose (("services").toList)) = true
  · simp only [hs, Bool.not_true, Bool.false_eq_true, if_false] at h
    split at h
    · exact absurd h (by simp)
    · rename_i resolved2 hgo
      rw [← Except.ok.inj h] at hsvcs
      rw [propGet, objGet_objSet_self] at hsvcs
      have hres2 : resolved2 = resolved := by
        have := Option.some.inj hsvcs
        injection this
      rw [hres2] at hgo
      exact resolveAllGo_extends_falsy _ _ _ _ (by intro k v hv; simp at hv) hgo
        name svc hmem
  · simp only [Bool.not_eq_true] at hs
    rw [hs] at h
    simp only [Bool.not_false, if_true] at h
    rw [← Except.ok.inj h] at hsvcs
    rw [hsvcs] at hs
    simp [truthyOpt, Value.truthy] at hs
/-- C7 counterexample: a falsy `extends` value short-circuits resolution and
the `extends` key survives in the accepted output verbatim. -/
theorem claim_C7_extends_stripped_counterexample :
    resolveAllExtends
        (.vObj [(("services").toList,
          .vObj [(("a").toList, .vObj [(extendsKey, .vNull)])])]) =
      .ok (.vObj [(("services").toList,
          .vObj [(("a").toList, .vObj [(extendsKey, .vNull)])])]) ∧
    propGet (.vObj [(extendsKey, .vNull)]) extendsKey = some .vNull := by
  constructor
  · simp [resolveAllExtends, resolveAllGo, resolveServiceExtends, propGet, objGet,
      truthyOpt, Value.truthy, toSpread, objSet, extendsKey]
  · rfl

def extWitCompose : Value :=
  .vObj [(("services").toList, .vObj
    [(("a").toList, .vObj [(extendsKey, .vStr (("b").toList))]),
     (("b").toList, .vObj [(("image").toList, .vStr (("y").toList))])])]

def extWitOut : Value :=
  .vObj [(("services").toList, .vObj
    [(("a").toList, .vObj [(("image").toList, .vStr (("y").toList))]),
     (("b").toList, .vObj [(("image").toList, .vStr (("y").toList))])])]

theorem claim_C7_extends_stripped_witness :
    resolveAllExtends extWitCompose = .ok extWitOut ∧
    truthyOpt (propGet (.vObj [(("image").toList, .vStr (("y").toList))])
      extendsKey) = false := by
  have hres : resolveAllExtends extWitCompose = .ok extWitOut := by
    simp [extWitCompose, extWitOut, resolveAllExtends, resolveAllGo,
      resolveServiceExtends, propGet, objGet, truthyOpt, Value.truthy, toSpread,
      objSet, objRemove, extendsKey, keyString, mergeServiceConfigs, mergeSvcGo,
      dependsOnKey, joinArrow, unvisitedCount]
  refine ⟨hres, ?_⟩
  exact claim_C7_extends_stripped extWitCompose extWitOut hres
    (("a").toList) (.vObj [(("image").toList, .vStr (("y").toList))])
    [(("a").toList, .vObj [(("image").toList, .vStr (("y").toList))]),
     (("b").toList, .vObj [(("image").toList, .vStr (("y").toList))])]
    (by rfl) (List.mem_cons_self _ _)

/-! ## C1: shape of depends_on after extends resolution -/

/-- Values that JS sees as a list or a mapping (`typeof 'object'`, non-null). -/
def arrOrObj : Value → Bool
  | .vArr _ => true
  | .vObj _ => true
  | _ => false

/-- A service whose `depends_on`, when present, is a list or a mapping (the
shapes the Compose format admits for the field). -/
def depOk (svc : Value) : Bool :=
  match propGet svc dependsOnKey with
  | some d => arrOrObj d
  | none => true

theorem arrOrObj_truthy {d : Value} (h : arrOrObj d = true) : d.truthy = true := by
  cases d <;> first | rfl | (exact absurd h (by simp [arrOrObj]))

theorem normalizeDependsOn_arrOrObj {d : Value} (h : arrOrObj d = true) :
    ∃ g, normalizeDependsOn d = .vObj g := by
  cases d with
  | vArr items =>
      refine ⟨items.map (fun svc => (keyString svc,
        Value.vObj [(("condition").toList, Value.vStr (("service_started").toList))])), ?_⟩
      rw [normalizeDependsOn]
      rw [if_neg (by simp [Value.truthy])]
  | vObj g => exact ⟨g, normalizeDependsOn_obj g⟩
  | vNull => exact absurd h (by simp [arrOrObj])
  | vBool b => exact absurd h (by simp [arrOrObj])
  | vNum m => exact absurd h (by simp [arrOrObj])
  | vStr s => exact absurd h (by simp [arrOrObj])

theorem deepMerge_obj (b : Value) (g : List (JStr × Value)) :
    ∃ h2, deepMerge b (.vObj g) = .vObj h2 := by
  rw [deepMerge]
  by_cases hb : (b.truthy && b.isObjType) = true
  · rw [hb]
    exact ⟨_, rfl⟩
  · rw [Bool.eq_false_iff.mpr hb]
    exact ⟨g, rfl⟩

theorem mergeValue_obj (cur : Option Value) (g : List (JStr × Value)) :
    ∃ h2, mergeValue cur (.vObj g) = .vObj h2 := by
  unfold mergeValue
  exact deepMerge_obj _ g

theorem objRemove_keys_nodup {fields : List (JStr × Value)} {k : JStr}
    (h : (fields.map Prod.fst).Nodup) :
    ((objRemove fields k).map Prod.fst).Nodup := by
  have hs : List.Sublist (objRemove fields k) fields := List.filter_sublist fields
  exact h.sublist (hs.map Prod.fst)
theorem resolveServiceExtends_dep_shape :
    ∀ (n : Nat) (allServices : List (JStr × Value)) (service : Value)
      (visited : List JStr) (r : Value),
      unvisitedCount allServices visited < n →
      depOk service = true →
      valueWf service = true →
      (∀ k v, (k, v) ∈ allServices → depOk v = true) →
      (∀ k v, (k, v) ∈ allServices → valueWf v = true) →
      resolveServiceExtends allServices service visited = .ok r →
      depOk r = true ∧
      (truthyOpt (propGet service extendsKey) = true →
        ∀ d, propGet r dependsOnKey = some d → ∃ g, d = .vObj g) := by
  intro n
  induction n with
  | zero => intro _ _ _ _ hlt; omega
  | succ n ih =>
      intro allServices service visited r hlt hdok hwf hall hallwf h
      by_cases hext : truthyOpt (propGet service extendsKey) = true
      case neg =>
        simp only [Bool.not_eq_true] at hext
        have hns : service ≠ .vNull := by
          intro he
          subst he
          rw [resolveServiceExtends] at h
          exact absurd h (by simp)
        rw [resolveServiceExtends_ok_falsy allServices service visited r hns hext h]
        exact ⟨hdok, by intro hc; rw [hc] at hext; cases hext⟩
      case pos =>
        cases service with
        | vObj fields =>
            rw [resolveServiceExtends] at h
            · simp only [hext, Bool.not_true, Bool.false_eq_true, if_false] at h
              split at h
              · exact absurd h (by simp)
              · rename_i hcyc
                split at h
                · exact absurd h (by simp)
                · rename_i extService hserv
                  split at h
                  · exact absurd h (by simp)
                  · rename_i htr
                    split at h
                    · exact absurd h (by simp)
                    · rename_i resolvedBase hrec
                      have hdec := unvisitedCount_snoc_lt
                        (objGet_mem_keys hserv) hcyc
                      have hmemext := objGet_mem hserv
                      have hih := ih allServices extService _ resolvedBase
                        (by omega) (hall _ _ hmemext) (hallwf _ _ hmemext)
                        hall hallwf hrec
                      -- the merged result
                      rw [← Except.ok.inj h]
                      -- strong conclusion first
                      have hnd : ((objRemove fields extendsKey).map Prod.fst).Nodup := by
                        rw [valueWf, Bool.and_eq_true, decide_eq_true_eq] at hwf
                        exact objRemove_keys_nodup hwf.1
                      have hov : propGet
                          (.vObj (objRemove (toSpread (.vObj fields)) extendsKey))
                          dependsOnKey = objGet fields dependsOnKey := by
                        rw [propGet, toSpread]
                        exact objGet_objRemove_ne dependsOn_ne_extends
                      have hstrong : ∀ d,
                          propGet (mergeServiceConfigs resolvedBase
                            (.vObj (objRemove (toSpread (.vObj fields)) extendsKey)))
                            dependsOnKey = some d → ∃ g, d = .vObj g := by
                        intro d hd
                        rw [mergeServiceConfigs_eq] at hd
                        rw [propGet] at hd
                        rcases hod : objGet fields dependsOnKey with _ | dv
                        · -- override carries no depends_on
                          have hodf : truthyOpt (propGet
                              (.vObj (objRemove (toSpread (.vObj fields)) extendsKey))
                              dependsOnKey) = false := by
                            rw [hov, hod]; rfl
                          rw [hodf] at hd
                          simp only [Bool.false_eq_true, if_false] at hd
                          rw [mergeSvcGo_get_not_mem _ _ _ (objGet_none_iff.mp
                            (by rw [toSpread, toSpread]
                                rw [objGet_objRemove_ne dependsOn_ne_extends, hod]))] at hd
                          rcases hbd : propGet resolvedBase dependsOnKey with _ | d1
                          · rw [hbd] at hd
                            simp only [truthyOpt, Bool.false_eq_true, if_false] at hd
                            rw [objGet_toSpread natDigits_ne_dependsOnKey, hbd] at hd
                            cases hd
                          · have hb1 : depOk resolvedBase = true := hih.1
                            rw [depOk, hbd] at hb1
                            have htr1 := arrOrObj_truthy hb1
                            rw [hbd] at hd
                            simp only [truthyOpt, htr1, if_true] at hd
                            rw [objGet_objSet_self] at hd
                            obtain ⟨g0, hg0⟩ := normalizeDependsOn_arrOrObj hb1
                            simp only [Option.getD_some] at hd
                            rw [hg0] at hd
                            exact ⟨g0, (Option.some.inj hd).symm⟩
                        · -- override carries depends_on dv (array or object)
                          have hdv : arrOrObj dv = true := by
                            have := hdok
                            rw [depOk, propGet, hod] at this
                            exact this
                          have htrv := arrOrObj_truthy hdv
                          have hodt : truthyOpt (propGet
                              (.vObj (objRemove (toSpread (.vObj fields)) extendsKey))
                              dependsOnKey) = true := by
                            rw [hov, hod]; exact htrv
                          rw [hodt] at hd
                          simp only [if_true] at hd
                          obtain ⟨g0, hg0⟩ := normalizeDependsOn_arrOrObj hdv
                          have hovget : objGet (toSpread
                              (.vObj (objRemove (toSpread (.vObj fields)) extendsKey)))
                              dependsOnKey = some dv := by
                            rw [toSpread, toSpread]
                            rw [objGet_objRemove_ne dependsOn_ne_extends, hod]
                          have hgd : (propGet
                              (.vObj (objRemove (toSpread (.vObj fields)) extendsKey))
                              dependsOnKey).getD .vNull = dv := by
                            rw [hov, hod]; rfl
                          rw [hgd, hg0] at hd
                          have hndset : ((objSet (toSpread
                              (.vObj (objRemove (toSpread (.vObj fields)) extendsKey)))
                              dependsOnKey (.vObj g0)).map Prod.fst).Nodup := by
                            rw [objSet_map_fst_of_get hovget]
                            rw [toSpread, toSpread]
                            exact hnd
                          have hsmem : (dependsOnKey, Value.vObj g0) ∈ objSet (toSpread
                              (.vObj (objRemove (toSpread (.vObj fields)) extendsKey)))
                              dependsOnKey (.vObj g0) :=
                            objGet_mem (objGet_objSet_self _ _ _)
                          rw [mergeSvcGo_get_of_mem _ _ _ _ hsmem hndset] at hd
                          rw [mergedFieldValue.eq_def, mergeStrategy_dependsOn] at hd
                          obtain ⟨h2, hh2⟩ := mergeValue_obj (objGet
                            (if truthyOpt (propGet resolvedBase dependsOnKey) = true then
                              objSet (toSpread resolvedBase) dependsOnKey
                                (normalizeDependsOn ((propGet resolvedBase dependsOnKey).getD .vNull))
                             else toSpread resolvedBase) dependsOnKey) g0
                          rw [hh2] at hd
                          exact ⟨h2, (Option.some.inj hd).symm⟩
                      refine ⟨?_, fun _ => hstrong⟩
                      rw [depOk]
                      rcases hgd : propGet (mergeServiceConfigs resolvedBase
                          (.vObj (objRemove (toSpread (.vObj fields)) extendsKey)))
                          dependsOnKey with _ | d
                      · rfl
                      · obtain ⟨g, hg⟩ := hstrong d hgd
                        rw [hg]
                        rfl
            · intro hc; cases hc
        | vNull => simp [propGet, truthyOpt] at hext
        | vBool b => simp [propGet, truthyOpt] at hext
        | vNum m => simp [propGet, truthyOpt] at hext
        | vStr s => simp [propGet, truthyOpt] at hext
        | vArr items => simp [propGet, truthyOpt] at hext
theorem resolveAllGo_dep (allServices : List (JStr × Value))
    (hall : ∀ k v, (k, v) ∈ allServices → depOk v = true)
    (hallwf : ∀ k v, (k, v) ∈ allServices → valueWf v = true) :
    ∀ (entries acc resolved : List (JStr × Value)),
      (∀ k v, (k, v) ∈ entries → depOk v = true ∧ valueWf v = true) →
      (∀ k v, (k, v) ∈ acc → depOk v = true) →
      resolveAllGo allServices entries acc = .ok resolved →
      ∀ k v, (k, v) ∈ resolved → depOk v = true := by
  intro entries
  induction entries with
  | nil =>
      intro acc resolved hent hacc h
      rw [resolveAllGo] at h
      rw [← Except.ok.inj h]
      exact hacc
  | cons p rest ih =>
      intro acc resolved hent hacc h
      obtain ⟨name, svc⟩ := p
      rw [resolveAllGo] at h
      split at h
      · rename_i r hres
        refine ih (objSet acc name r) resolved
          (fun k v hv => hent k v (List.mem_cons_of_mem _ hv)) ?_ h
        intro k v hmem
        rcases mem_objSet hmem with he | hin
        · rw [(Prod.mk.injEq _ _ _ _).mp he |>.2]
          have hsvc := hent name svc (List.mem_cons_self _ _)
          exact (resolveServiceExtends_dep_shape
            (unvisitedCount allServices [] + 1) allServices svc [] r
            (by omega) hsvc.1 hsvc.2 hall hallwf hres).1
        · exact hacc k v hin
      · exact absurd h (by simp)

theorem resolveAllGo_frozen (allServices : List (JStr × Value)) :
    ∀ (entries acc resolved : List (JStr × Value)) (name : JStr),
      resolveAllGo allServices entries acc = .ok resolved →
      name ∉ entries.map Prod.fst →
      objGet resolved name = objGet acc name := by
  intro entries
  induction entries with
  | nil =>
      intro acc resolved name h _
      rw [resolveAllGo] at h
      rw [← Except.ok.inj h]
  | cons p rest ih =>
      intro acc resolved name h hnot
      obtain ⟨k0, v0⟩ := p
      rw [resolveAllGo] at h
      split at h
      · rename_i r hres
        simp only [List.map_cons, List.mem_cons] at hnot
        rw [ih (objSet acc k0 r) resolved name h (fun hc => hnot (Or.inr hc))]
        exact objGet_objSet_ne _ _ (fun he => hnot (Or.inl he.symm))
      · exact absurd h (by simp)

theorem resolveAllGo_get (allServices : List (JStr × Value)) :
    ∀ (entries acc resolved : List (JStr × Value)) (name : JStr) (svc : Value),
      (entries.map Prod.fst).Nodup →
      resolveAllGo allServices entries acc = .ok resolved →
      (name, svc) ∈ entries →
      ∃ r, resolveServiceExtends allServices svc [] = .ok r ∧
        objGet resolved name = some r := by
  intro entries
  induction entries with
  | nil =>
      intro acc resolved name svc _ _ hmem
      cases hmem
  | cons p rest ih =>
      intro acc resolved name svc hnd h hmem
      obtain ⟨k0, v0⟩ := p
      rw [List.map_cons] at hnd
      rw [resolveAllGo] at h
      split at h
      · rename_i r hres
        rcases List.mem_cons.mp hmem with he | hin
        · obtain ⟨he1, he2⟩ := (Prod.mk.injEq _ _ _ _).mp he
          subst he1; subst he2
          refine ⟨r, hres, ?_⟩
          rw [resolveAllGo_frozen allServices rest _ resolved name h
            (List.nodup_cons.mp hnd).1]
          exact objGet_objSet_self _ _ _
        · exact ih (objSet acc k0 r) resolved name svc
            (List.nodup_cons.mp hnd).2 h hin
      · exact absurd h (by simp)
/-- C1 (amended): on a well-formed document (service keys distinct, every
service's `depends_on` a list or mapping), every service that carried a
truthy `extends` has its `depends_on`, when present after resolution, in
the long mapping-of-condition object form.  The unqualified claim fails
for services without `extends`: they are returned verbatim, array-form
`depends_on` included — see the counterexample. -/
theorem claim_C1_depends_on_object_form (compose out : Value)
    (svcs resolved : List (JStr × Value))
    (hsv : propGet compose (("services").toList) = some (.vObj svcs))
    (hnd : (svcs.map Prod.fst).Nodup)
    (hok : ∀ k v, (k, v) ∈ svcs → depOk v = true ∧ valueWf v = true)
    (h : resolveAllExtends compose = .ok out)
    (hout : propGet out (("services").toList) = some (.vObj resolved)) :
    (∀ name svc, (name, svc) ∈ resolved → depOk svc = true) ∧
    (∀ name svc r d, objGet svcs name = some svc →
      truthyOpt (propGet svc extendsKey) = true →
      objGet resolved name = some r →
      propGet r dependsOnKey = some d → ∃ g, d = .vObj g) := by
  rw [resolveAllExtends] at h
  have ht : truthyOpt (propGet compose (("services").toList)) = true := by
    rw [hsv]; rfl
  rw [ht] at h
  simp only [Bool.not_true, Bool.false_eq_true, if_false] at h
  rw [hsv] at h
  simp only [Option.getD_some, toSpread] at h
  split at h
  · exact absurd h (by simp)
  · rename_i resolved2 hgo
    rw [← Except.ok.inj h] at hout
    rw [propGet, objGet_objSet_self] at hout
    have hres2 : resolved2 = resolved := by
      injection Option.some.inj hout
    rw [hres2] at hgo
    constructor
    · intro name svc hmem
      exact resolveAllGo_dep svcs (fun k v hv => (hok k v hv).1)
        (fun k v hv => (hok k v hv).2) svcs [] resolved hok
        (by intro k v hv; cases hv) hgo name svc hmem
    · intro name svc r d hget hext hrget hdep
      obtain ⟨r0, hr0, hr0get⟩ := resolveAllGo_get svcs svcs [] resolved name svc
        hnd hgo (objGet_mem hget)
      have hrr : r0 = r := by
        rw [hr0get] at hrget
        exact Option.some.inj hrget
      subst hrr
      have hsvc := hok name svc (objGet_mem hget)
      exact (resolveServiceExtends_dep_shape (unvisitedCount svcs [] + 1)
        svcs svc [] r0 (by omega) hsvc.1 hsvc.2
        (fun k v hv => (hok k v hv).1) (fun k v hv => (hok k v hv).2) hr0).2 hext d hdep
/-- C1 counterexample: a service that carries no `extends` field is
returned verbatim by the resolver, so its array-form `depends_on`
survives resolution unchanged. -/
theorem claim_C1_depends_on_object_form_counterexample :
    resolveAllExtends
        (.vObj [(("services").toList,
          .vObj [(("a").toList,
            .vObj [(dependsOnKey, .vArr [.vStr (("db").toList)])])])]) =
      .ok (.vObj [(("services").toList,
          .vObj [(("a").toList,
            .vObj [(dependsOnKey, .vArr [.vStr (("db").toList)])])])]) ∧
    propGet (.vObj [(dependsOnKey, .vArr [.vStr (("db").toList)])]) dependsOnKey =
      some (.vArr [.vStr (("db").toList)]) ∧
    (∀ g, Value.vArr [.vStr (("db").toList)] ≠ .vObj g) := by
  refine ⟨?_, rfl, ?_⟩
  · simp [resolveAllExtends, resolveAllGo, resolveServiceExtends, propGet, objGet,
      truthyOpt, Value.truthy, toSpread, objSet, extendsKey, dependsOnKey]
  · intro g hc; cases hc

def depWitCompose : Value :=
  .vObj [(("services").toList, .vObj
    [(("a").toList, .vObj
      [(extendsKey, .vStr (("b").toList)),
       (dependsOnKey, .vArr [.vStr (("db").toList)])]),
     (("b").toList, .vObj [(("image").toList, .vStr (("y").toList))])])]

def depWitOut : Value :=
  .vObj [(("services").toList, .vObj
    [(("a").toList, .vObj
      [(("image").toList, .vStr (("y").toList)),
       (dependsOnKey, .vObj [(("db").toList,
         .vObj [(("condition").toList, .vStr (("service_started").toList))])])]),
     (("b").toList, .vObj [(("image").toList, .vStr (("y").toList))])])]

theorem claim_C1_depends_on_object_form_witness :
    resolveAllExtends depWitCompose = .ok depWitOut ∧
    (∃ g, Value.vObj [(("db").toList, .vObj [(("condition").toList,
        .vStr (("service_started").toList))])] = .vObj g) := by
  have hres : resolveAllExtends depWitCompose = .ok depWitOut := by
    simp [depWitCompose, depWitOut, resolveAllExtends, resolveAllGo,
      resolveServiceExtends, propGet, objGet, truthyOpt, Value.truthy, toSpread,
      objSet, objRemove, extendsKey, dependsOnKey, keyString,
      mergeServiceConfigs, mergeSvcGo, mergeStrategy, mergeFields, concatFields,
      mergeValue, concatValue, normalizeDependsOn, deepMerge, deepMergeGo,
      joinArrow, unvisitedCount]
  refine ⟨hres, ?_⟩
  refine (claim_C1_depends_on_object_form depWitCompose depWitOut
    (toSpread ((propGet depWitCompose (("services").toList)).getD .vNull))
    [(("a").toList, .vObj
      [(("image").toList, .vStr (("y").toList)),
       (dependsOnKey, .vObj [(("db").toList,
         .vObj [(("condition").toList, .vStr (("service_started").toList))])])]),
     (("b").toList, .vObj [(("image").toList, .vStr (("y").toList))])]
    (by rfl) (by decide) ?_ hres (by rfl)).2
    (("a").toList)
    (.vObj [(extendsKey, .vStr (("b").toList)),
       (dependsOnKey, .vArr [.vStr (("db").toList)])])
    (.vObj [(("image").toList, .vStr (("y").toList)),
       (dependsOnKey, .vObj [(("db").toList,
         .vObj [(("condition").toList, .vStr (("service_started").toList))])])])
    (.vObj [(("db").toList,
       .vObj [(("condition").toList, .vStr (("service_started").toList))])])
    (by rfl) (by decide) (by rfl) (by rfl)
  intro k v hv
  cases hv with
  | head => exact ⟨by decide, by decide⟩
  | tail _ hv2 =>
      cases hv2 with
      | head => exact ⟨by decide, by decide⟩
      | tail _ hv3 => cases hv3
/-- C5: a 3-node cycle `a→b→c→a` raises a fatal error naming the visited
chain in both resolvers independently: the include resolver on a cycle of
files `a.yml → b.yml → c.yml → a.yml`, the extends resolver on a cycle
of services `a → b → c → a` (its chain starts at the first *referenced*
service, `b`).  The payload of every node is arbitrary. -/
theorem claim_C5_cycle_detection :
    ∀ (ra rb rc : List (JStr × Value)) (restFM : List (JStr × Value)),
      resolveIncludes
        ([(("a.yml").toList, .vObj ((includeKey, .vArr [.vStr (("b.yml").toList)]) :: ra)),
          (("b.yml").toList, .vObj ((includeKey, .vArr [.vStr (("c.yml").toList)]) :: rb)),
          (("c.yml").toList, .vObj ((includeKey, .vArr [.vStr (("a.yml").toList)]) :: rc))]
          ++ restFM)
        (.vObj ((includeKey, .vArr [.vStr (("b.yml").toList)]) :: ra))
        (("a.yml").toList) [] =
        .error (("Circular include detected: a.yml → b.yml → c.yml → a.yml").toList) ∧
      resolveServiceExtends
        [(("a").toList, .vObj ((extendsKey, .vStr (("b").toList)) :: ra)),
         (("b").toList, .vObj ((extendsKey, .vStr (("c").toList)) :: rb)),
         (("c").toList, .vObj ((extendsKey, .vStr (("a").toList)) :: rc))]
        (.vObj ((extendsKey, .vStr (("b").toList)) :: ra)) [] =
        .error (("Circular extends detected: b → c → a → b").toList) := by
  intro ra rb rc restFM
  constructor
  · simp [resolveIncludes, includesLoop, propGet, objGet, truthyOpt, Value.truthy,
      toSpread, normalizePath, resolvePath, joinPath, dirname, splitOn1, consHead,
      normSegsGo, joinSep, dotSeg, dotDotSeg, joinArrow, joinSepStr, includeKey,
      objRemove, List.filter]
  · simp [resolveServiceExtends, propGet, objGet, truthyOpt, Value.truthy,
      toSpread, keyString, joinArrow, joinSepStr, extendsKey, objRemove]
/-- C10: with sibling includes `f1.yml, f2.yml` both defining the service
key `k`, the earlier include wins: each included document is merged as the
base beneath the running result, so `f1`'s `k ↦ v1` overrides `f2`'s
`k ↦ v2`, while keys only `f2` defines survive. -/
theorem claim_C10_earlier_include_wins (k k2 : JStr) (v1 v2 w : Value) :
    resolveIncludes
      [(("f1.yml").toList, .vObj [(servicesKey, .vObj [(k, v1)])]),
       (("f2.yml").toList, .vObj [(servicesKey, .vObj [(k, v2), (k2, w)])])]
      (.vObj [(includeKey,
        .vArr [.vStr (("f1.yml").toList), .vStr (("f2.yml").toList)])])
      (("main.yml").toList) [] =
      .ok (.vObj [(servicesKey, .vObj [(k, v1), (k2, w)])]) := by
  simp [resolveIncludes, includesLoop, mergeComposeFiles, mergeComposeGo, objUnion,
    reservedKeys, propGet, objGet, truthyOpt, Value.truthy, toSpread, objSet,
    objRemove, includeKey, servicesKey, normalizePath, resolvePath, joinPath,
    dirname, splitOn1, consHead, normSegsGo, joinSep, dotSeg, dotDotSeg]

/-! ## C8: the double-dollar escape -/

theorem preprocessDollars_free {u : JStr} (hu : ∀ c ∈ u, c ≠ '$') (s : JStr) :
    preprocessDollars (u ++ s) = u ++ preprocessDollars s := by
  induction u with
  | nil => rfl
  | cons c u' ih =>
      have hc : c ≠ '$' := hu c (List.mem_cons_self _ _)
      rw [List.cons_append, preprocessDollars]
      · rw [ih (fun d hd => hu d (List.mem_cons_of_mem _ hd))]
        rfl
      · intros
        exact hc (by assumption)

theorem preprocessDollars_dollars (rest : JStr) :
    preprocessDollars ('$' :: '$' :: rest) = escapedDollar ++ preprocessDollars rest := by
  rw [preprocessDollars]

/-- The previous-character state after scanning a block of characters. -/
def lastOr (prev : Option Char) : JStr → Option Char
  | [] => prev
  | c :: rest => lastOr (some c) rest

theorem scanVars_nodollar :
    ∀ (x : JStr), (∀ c ∈ x, c ≠ '$') →
    ∀ (prev : Option Char) (y : JStr),
      scanVars prev (x ++ y) = x.map Tok.lit ++ scanVars (lastOr prev x) y := by
  intro x
  induction x with
  | nil => intro _ prev y; rfl
  | cons c x' ih =>
      intro hx prev y
      have hc : c ≠ '$' := hx c (List.mem_cons_self _ _)
      rw [List.cons_append, scanVars]
      · rw [ih (fun d hd => hx d (List.mem_cons_of_mem _ hd))]
        rfl
      · intros
        exact hc (by assumption)
      · intros
        exact hc (by assumption)

theorem interpGo_lits (env : List (JStr × JStr)) (t : Bool) :
    ∀ (x : JStr) (rest : List Tok) (accRes : JStr) (accHas : Bool)
      (accVars : List JStr) (accErrs : List (JStr × JStr)),
      interpGo env t (x.map Tok.lit ++ rest) accRes accHas accVars accErrs =
        interpGo env t rest (accRes ++ x) accHas accVars accErrs := by
  intro x
  induction x with
  | nil => intro rest accRes _ _ _; rw [List.map_nil, List.nil_append, List.append_nil]
  | cons c x' ih =>
      intro rest accRes accHas accVars accErrs
      rw [List.map_cons, List.cons_append, interpGo, ih]
      rw [List.append_assoc]
      rfl

theorem restoreDollars_free {u : JStr} (hu : ∀ c ∈ u, c ≠ '\x00') (s : JStr) :
    restoreDollars (u ++ s) = u ++ restoreDollars s := by
  induction u with
  | nil => rfl
  | cons c u' ih =>
      have hc : c ≠ '\x00' := hu c (List.mem_cons_self _ _)
      rw [List.cons_append, restoreDollars]
      rw [dif_neg ?nopre]
      case nopre =>
        intro hpre
        obtain ⟨t, ht⟩ := hpre
        rw [show escapedDollar = '\x00' :: (("ESCAPED_DOLLAR\x00").toList) from rfl,
          List.cons_append] at ht
        injection ht with h1 _
        exact hc h1.symm
      show c :: restoreDollars (u' ++ s) = c :: u' ++ restoreDollars s
      rw [ih (fun d hd => hu d (List.mem_cons_of_mem _ hd))]
      rfl

theorem restoreDollars_placeholder (s : JStr) :
    restoreDollars (escapedDollar ++ s) = '$' :: restoreDollars s := by
  rw [restoreDollars]
  rw [dif_pos (List.prefix_append _ _)]
  rw [List.drop_left]

theorem preprocessDollars_nodollar {w : JStr} (hw : ∀ c ∈ w, c ≠ '$') :
    preprocessDollars w = w := by
  have h := preprocessDollars_free hw []
  rw [List.append_nil] at h
  rw [h, show preprocessDollars [] = ([] : JStr) from rfl, List.append_nil]

theorem restoreDollars_nil : restoreDollars [] = [] := by
  rw [restoreDollars]
  rw [dif_neg (by decide)]

theorem restoreDollars_nonul {w : JStr} (hw : ∀ c ∈ w, c ≠ '\x00') :
    restoreDollars w = w := by
  have h := restoreDollars_free hw []
  rw [List.append_nil] at h
  rw [h, restoreDollars_nil, List.append_nil]

theorem scanVars_nil (prev : Option Char) : scanVars prev [] = [] := by
  rw [scanVars]

theorem escapedDollar_nodollar : ∀ c ∈ escapedDollar, c ≠ '$' := by decide

theorem escapedDollar_head : escapedDollar = '\x00' :: (("ESCAPED_DOLLAR\x00").toList) := rfl

/-- Evaluation of `interpolateString` on a string whose preprocessed form is
entirely dollar-free: every character is emitted as a literal. -/
theorem interpolateString_alllits (env : List (JStr × JStr)) (t : Bool)
    (str P : JStr) (hpp : preprocessDollars str = P)
    (hP : ∀ c ∈ P, c ≠ '$') :
    interpolateString env t str = .ok ⟨restoreDollars P, false, [], []⟩ := by
  have h2 := scanVars_nodollar P hP none []
  rw [List.append_nil, scanVars_nil, List.append_nil] at h2
  have h3 := interpGo_lits env t P [] [] false [] []
  rw [List.append_nil, List.nil_append] at h3
  rw [interpolateString, hpp, h2, h3]
  rfl


/-- C8 (amended): when the surrounding text is free of `$` and of the NUL
byte, a `$$` pair is collapsed to a single literal `$` and is never itself
expanded (two occurrences with arbitrary such text around them, under any
environment and in both error modes), and a braced reference immediately
following `$$` (as in `$$\x7bNAME\x7d`) survives as the literal text
`$\x7bNAME\x7d` — never expanded, never recorded as a variable, even when
NAME is set in the environment.  Unrestricted the property fails — see the
counterexample. -/
theorem claim_C8_double_dollar (env : List (JStr × JStr)) (t : Bool)
    (u v w name : JStr)
    (hu : ∀ c ∈ u, c ≠ '$' ∧ c ≠ '\x00')
    (hv : ∀ c ∈ v, c ≠ '$' ∧ c ≠ '\x00')
    (hw : ∀ c ∈ w, c ≠ '$' ∧ c ≠ '\x00')
    (hn : ∀ c ∈ name, c ≠ '$' ∧ c ≠ '\x00') :
    interpolateString env t (u ++ '$' :: '$' :: (v ++ '$' :: '$' :: w)) =
      .ok ⟨u ++ '$' :: (v ++ '$' :: w), false, [], []⟩ ∧
    interpolateString env t ('$' :: '$' :: ('{' :: (name ++ ['}']))) =
      .ok ⟨'$' :: '{' :: (name ++ ['}']), false, [], []⟩ := by
  constructor
  · have hpp : preprocessDollars (u ++ '$' :: '$' :: (v ++ '$' :: '$' :: w)) =
        u ++ (escapedDollar ++ (v ++ (escapedDollar ++ w))) := by
      rw [preprocessDollars_free (fun c hc => (hu c hc).1)]
      rw [preprocessDollars_dollars]
      rw [preprocessDollars_free (fun c hc => (hv c hc).1)]
      rw [preprocessDollars_dollars]
      rw [preprocessDollars_nodollar (fun c hc => (hw c hc).1)]
    have hP : ∀ c ∈ u ++ (escapedDollar ++ (v ++ (escapedDollar ++ w))), c ≠ '$' := by
      intro c hc
      simp only [List.mem_append] at hc
      rcases hc with hc | hc | hc | hc | hc
      · exact (hu c hc).1
      · exact escapedDollar_nodollar c hc
      · exact (hv c hc).1
      · exact escapedDollar_nodollar c hc
      · exact (hw c hc).1
    rw [interpolateString_alllits env t _ _ hpp hP]
    rw [restoreDollars_free (fun c hc => (hu c hc).2), restoreDollars_placeholder,
      restoreDollars_free (fun c hc => (hv c hc).2), restoreDollars_placeholder,
      restoreDollars_nonul (fun c hc => (hw c hc).2)]
  · have hbrace : ∀ c ∈ ('{' :: (name ++ ['}'])), c ≠ '$' ∧ c ≠ '\x00' := by
      intro c hc
      rcases List.mem_cons.mp hc with he | hc2
      · rw [he]; exact ⟨by decide, by decide⟩
      · rcases List.mem_append.mp hc2 with hc3 | hc3
        · exact hn c hc3
        · rcases List.mem_singleton.mp hc3 with he2
          rw [he2]; exact ⟨by decide, by decide⟩
    have hpp : preprocessDollars ('$' :: '$' :: ('{' :: (name ++ ['}']))) =
        escapedDollar ++ ('{' :: (name ++ ['}'])) := by
      rw [preprocessDollars_dollars]
      rw [preprocessDollars_nodollar (fun c hc => (hbrace c hc).1)]
    have hP : ∀ c ∈ escapedDollar ++ ('{' :: (name ++ ['}'])), c ≠ '$' := by
      intro c hc
      rcases List.mem_append.mp hc with hc2 | hc2
      · exact escapedDollar_nodollar c hc2
      · exact (hbrace c hc2).1
    rw [interpolateString_alllits env t _ _ hpp hP]
    rw [restoreDollars_placeholder,
      restoreDollars_nonul (fun c hc => (hbrace c hc).2)]

theorem claim_C8_double_dollar_witness :
    ((∀ c ∈ ("a").toList, c ≠ '$' ∧ c ≠ '\x00') ∧
     (∀ c ∈ ("PORT").toList, c ≠ '$' ∧ c ≠ '\x00')) ∧
    (interpolateString [((("PORT").toList), ("80").toList)] true
        (("a").toList ++ '$' :: '$' :: (("b").toList ++ '$' :: '$' :: ("c").toList)) =
      .ok ⟨("a").toList ++ '$' :: (("b").toList ++ '$' :: ("c").toList),
        false, [], []⟩) ∧
    (interpolateString [((("PORT").toList), ("80").toList)] true
        ('$' :: '$' :: ('{' :: (("PORT").toList ++ ['}']))) =
      .ok ⟨'$' :: '{' :: (("PORT").toList ++ ['}']), false, [], []⟩) := by
  have h := claim_C8_double_dollar [((("PORT").toList), ("80").toList)] true
    (("a").toList) (("b").toList) (("c").toList) (("PORT").toList)
    (by decide) (by decide) (by decide) (by decide)
  exact ⟨⟨by decide, by decide⟩, h.1, h.2⟩

/-! ## C6: only a stage-1 failure is fatal -/

theorem dedupVarDiagsGo_dtype :
    ∀ (pending : List (JStr × JStr)) (seen : List JStr) (d : Diag),
      d ∈ dedupVarDiagsGo pending seen → d.dtype = ("variable").toList := by
  intro pending
  induction pending with
  | nil => intro seen d hd; cases hd
  | cons p rest ih =>
      intro seen d hd
      obtain ⟨raw, vn⟩ := p
      rw [dedupVarDiagsGo] at hd
      split at hd
      · exact ih _ d hd
      · rcases List.mem_cons.mp hd with he | hd2
        · rw [he]
        · exact ih _ d hd2

theorem incStepF_dtype (b : Bool) (fm : List (JStr × Value)) (c0 : Value)
    (bp : JStr) (d : Diag) (hd : d ∈ (incStepF b fm c0 bp).2) :
    d.dtype = ("include").toList := by
  rw [incStepF] at hd
  split at hd
  · split at hd
    · cases hd
    · rw [List.mem_singleton.mp hd]
  · cases hd

theorem extStepF_dtype (b : Bool) (c1 : Value) (d : Diag)
    (hd : d ∈ (extStepF b c1).2) : d.dtype = ("extends").toList := by
  rw [extStepF] at hd
  split at hd
  · split at hd
    · cases hd
    · rw [List.mem_singleton.mp hd]
  · cases hd

theorem warnDiagsF_dtype (l : List JStr) (d : Diag) (hd : d ∈ warnDiagsF l) :
    d.dtype = ("warning").toList := by
  rw [warnDiagsF] at hd
  split at hd
  · cases hd
  · rw [List.mem_singleton.mp hd]

theorem varStepF_dtype (b : Bool) (env : List (JStr × JStr)) (am : Bool)
    (c2 : Value) (d : Diag) (hd : d ∈ (varStepF b env am c2).2) :
    d.dtype = ("variable").toList := by
  rw [varStepF] at hd
  split at hd
  · split at hd
    · exact dedupVarDiagsGo_dtype _ _ d hd
    · rw [List.mem_singleton.mp hd]
  · cases hd

/-- C6: only a stage-1 failure — the raw parse throwing, or the parsed root
failing the object check that stage 1 performs — yields the fatal result
(null document, single fatal diagnostic).  On an object root the document
is never null and no diagnostic is fatal; an include-stage or
extends-stage failure only prepends its non-fatal diagnostic, the rest of
the result being identical to the run with that stage disabled (the
pipeline continues with the document state from before the failed
stage). -/
theorem claim_C6_fatal_only_raw_parse
    (env : List (JStr × JStr)) (ap : List JStr) (bp : JStr)
    (fm : List (JStr × Value)) (e1 e2 e3 e4 e5 : Bool)
    (e m m2 : JStr) (compose0 : Value)
    (htr : (compose0.truthy && compose0.isObjType) = true) :
    (parseCompose (.error e) env ap bp fm e1 e2 e3 e4 e5 =
      ParseResult.mk none [] [] [] []
        [Diag.mk (("fatal").toList) e (("yaml-parsing").toList)]) ∧
    (∀ v : Value, (v.truthy && v.isObjType) = false →
      parseCompose (.ok v) env ap bp fm e1 e2 e3 e4 e5 =
        ParseResult.mk none [] [] [] []
          [Diag.mk (("fatal").toList)
            (("Invalid YAML: expected object at root").toList)
            (("yaml-parsing").toList)]) ∧
    ((parseCompose (.ok compose0) env ap bp fm e1 e2 e3 e4 e5).compose ≠ none ∧
      ∀ d ∈ (parseCompose (.ok compose0) env ap bp fm e1 e2 e3 e4 e5).errors,
        d.dtype ≠ ("fatal").toList) ∧
    (resolveIncludes fm compose0 bp [] = .error m →
      parseCompose (.ok compose0) env ap bp fm true e2 e3 e4 e5 =
        ParseResult.mk
          (parseCompose (.ok compose0) env ap bp fm false e2 e3 e4 e5).compose
          (parseCompose (.ok compose0) env ap bp fm false e2 e3 e4 e5).profiles
          (parseCompose (.ok compose0) env ap bp fm false e2 e3 e4 e5).profileCounts
          (parseCompose (.ok compose0) env ap bp fm false e2 e3 e4 e5).refVariables
          (parseCompose (.ok compose0) env ap bp fm false e2 e3 e4 e5).undefinedVariables
          (Diag.mk (("include").toList) m (("include-resolution").toList) ::
            (parseCompose (.ok compose0) env ap bp fm false e2 e3 e4 e5).errors)) ∧
    (resolveAllExtends compose0 = .error m2 →
      parseCompose (.ok compose0) env ap bp fm false true e3 e4 e5 =
        ParseResult.mk
          (parseCompose (.ok compose0) env ap bp fm false false e3 e4 e5).compose
          (parseCompose (.ok compose0) env ap bp fm false false e3 e4 e5).profiles
          (parseCompose (.ok compose0) env ap bp fm false false e3 e4 e5).profileCounts
          (parseCompose (.ok compose0) env ap bp fm false false e3 e4 e5).refVariables
          (parseCompose (.ok compose0) env ap bp fm false false e3 e4 e5).undefinedVariables
          (Diag.mk (("extends").toList) m2 (("extends-resolution").toList) ::
            (parseCompose (.ok compose0) env ap bp fm false false e3 e4 e5).errors)) := by
  refine ⟨rfl, ?_, ⟨?_, ?_⟩, ?_, ?_⟩
  · intro v hfal
    rw [parseCompose]
    rw [hfal]
    rfl
  · simp only [parseCompose, htr, Bool.not_true, Bool.false_eq_true, if_false]
    intro hc
    cases hc
  · intro d hd
    simp only [parseCompose, htr, Bool.not_true, Bool.false_eq_true, if_false] at hd
    rw [List.mem_append] at hd
    rcases hd with hd | hd
    · rw [List.mem_append] at hd
      rcases hd with hd | hd
      · rw [List.mem_append] at hd
        rcases hd with hd | hd
        · rw [incStepF_dtype _ _ _ _ d hd]
          decide
        · rw [extStepF_dtype _ _ d hd]
          decide
      · rw [warnDiagsF_dtype _ d hd]
        decide
    · rw [varStepF_dtype _ _ _ _ d hd]
      decide
  · intro hinc
    have hi : incStepF true fm compose0 bp =
        (compose0, [Diag.mk (("include").toList) m (("include-resolution").toList)]) := by
      rw [incStepF, if_pos rfl, hinc]
    have hi0 : incStepF false fm compose0 bp = (compose0, []) := rfl
    simp only [parseCompose, htr, Bool.not_true, Bool.false_eq_true, if_false,
      hi, hi0]
    rfl
  · intro hext
    have he1 : extStepF true compose0 =
        (compose0, [Diag.mk (("extends").toList) m2 (("extends-resolution").toList)]) := by
      rw [extStepF, if_pos rfl, hext]
    have he0 : extStepF false compose0 = (compose0, []) := rfl
    have hi0 : incStepF false fm compose0 bp = (compose0, []) := rfl
    simp only [parseCompose, htr, Bool.not_true, Bool.false_eq_true, if_false,
      hi0, he1, he0]
    rfl

/-- Concrete document whose include stage and extends stage both fail. -/
def c6WitDoc : Value :=
  .vObj [(includeKey, .vArr [.vStr (("x.yml").toList)]),
    (servicesKey, .vObj [(("a").toList,
      .vObj [(extendsKey, .vStr (("nope").toList))])])]

theorem claim_C6_fatal_only_raw_parse_witness :
    ((c6WitDoc.truthy && c6WitDoc.isObjType) = true) ∧
    (resolveIncludes [] c6WitDoc (("main.yml").toList) [] =
      .error (("Include file not found: \"x.yml\"\nResolved to: \"x.yml\"\nAvailable files: ").toList)) ∧
    (resolveAllExtends c6WitDoc =
      .error (("Error resolving extends for service \"a\": Service \"nope\" referenced in extends not found").toList)) ∧
    (parseCompose (.error (("boom").toList)) [] [] (("main.yml").toList) []
        true true true true true =
      ParseResult.mk none [] [] [] []
        [Diag.mk (("fatal").toList) (("boom").toList) (("yaml-parsing").toList)]) ∧
    (parseCompose (.ok c6WitDoc) [] [] (("main.yml").toList) [] true true true true true =
      ParseResult.mk
        (parseCompose (.ok c6WitDoc) [] [] (("main.yml").toList) [] false true true true true).compose
        (parseCompose (.ok c6WitDoc) [] [] (("main.yml").toList) [] false true true true true).profiles
        (parseCompose (.ok c6WitDoc) [] [] (("main.yml").toList) [] false true true true true).profileCounts
        (parseCompose (.ok c6WitDoc) [] [] (("main.yml").toList) [] false true true true true).refVariables
        (parseCompose (.ok c6WitDoc) [] [] (("main.yml").toList) [] false true true true true).undefinedVariables
        (Diag.mk (("include").toList)
            (("Include file not found: \"x.yml\"\nResolved to: \"x.yml\"\nAvailable files: ").toList)
            (("include-resolution").toList) ::
          (parseCompose (.ok c6WitDoc) [] [] (("main.yml").toList) [] false true true true true).errors)) ∧
    (parseCompose (.ok c6WitDoc) [] [] (("main.yml").toList) [] false true true true true =
      ParseResult.mk
        (parseCompose (.ok c6WitDoc) [] [] (("main.yml").toList) [] false false true true true).compose
        (parseCompose (.ok c6WitDoc) [] [] (("main.yml").toList) [] false false true true true).profiles
        (parseCompose (.ok c6WitDoc) [] [] (("main.yml").toList) [] false false true true true).profileCounts
        (parseCompose (.ok c6WitDoc) [] [] (("main.yml").toList) [] false false true true true).refVariables
        (parseCompose (.ok c6WitDoc) [] [] (("main.yml").toList) [] false false true true true).undefinedVariables
        (Diag.mk (("extends").toList)
            (("Error resolving extends for service \"a\": Service \"nope\" referenced in extends not found").toList)
            (("extends-resolution").toList) ::
          (parseCompose (.ok c6WitDoc) [] [] (("main.yml").toList) [] false false true true true).errors)) := by
  have htr : (c6WitDoc.truthy && c6WitDoc.isObjType) = true := by decide
  have hinc : resolveIncludes [] c6WitDoc (("main.yml").toList) [] =
      .error (("Include file not found: \"x.yml\"\nResolved to: \"x.yml\"\nAvailable files: ").toList) := by
    simp [c6WitDoc, resolveIncludes, includesLoop, propGet, objGet, truthyOpt,
      Value.truthy, toSpread, objRemove, includeKey, servicesKey, extendsKey,
      normalizePath, resolvePath, joinPath, dirname, splitOn1, consHead,
      normSegsGo, joinSep, dotSeg, dotDotSeg, joinSepStr]
  have hext : resolveAllExtends c6WitDoc =
      .error (("Error resolving extends for service \"a\": Service \"nope\" referenced in extends not found").toList) := by
    simp [c6WitDoc, resolveAllExtends, resolveAllGo, resolveServiceExtends,
      propGet, objGet, truthyOpt, Value.truthy, toSpread, keyString,
      extendsKey, servicesKey, includeKey, objSet, joinArrow, joinSepStr]
  have h := claim_C6_fatal_only_raw_parse [] [] (("main.yml").toList) []
    true true true true true (("boom").toList)
    (("Include file not found: \"x.yml\"\nResolved to: \"x.yml\"\nAvailable files: ").toList)
    (("Error resolving extends for service \"a\": Service \"nope\" referenced in extends not found").toList)
    c6WitDoc htr
  have h2 := claim_C6_fatal_only_raw_parse [] [] (("main.yml").toList) []
    false true true true true (("boom").toList)
    (("Include file not found: \"x.yml\"\nResolved to: \"x.yml\"\nAvailable files: ").toList)
    (("Error resolving extends for service \"a\": Service \"nope\" referenced in extends not found").toList)
    c6WitDoc htr
  exact ⟨htr, hinc, hext, h.1, h.2.2.2.1 hinc, h2.2.2.2.2 hext⟩

theorem scanVars_ref (prev : Option Char) (inner rest : JStr)
    (hprev : ¬ prev = some '$') (hin : ∀ c ∈ inner, c ≠ '}') (hne : inner ≠ []) :
    scanVars prev ('$' :: '{' :: (inner ++ '}' :: rest)) =
      .ref inner :: scanVars (some '}') rest := by
  have hdrop : (inner ++ '}' :: rest).dropWhile (fun c => decide (c ≠ '}')) =
      '}' :: rest := by
    rw [dropWhile_append_all (by intro c hc; simpa using hin c hc)]
    rw [List.dropWhile_cons]
    simp
  have htake : (inner ++ '}' :: rest).takeWhile (fun c => decide (c ≠ '}')) =
      inner := by
    rw [takeWhile_append_all (by intro c hc; simpa using hin c hc)]
    rw [List.takeWhile_cons]
    simp
  rw [scanVars]
  rw [if_neg hprev]
  simp only [htake]
  split
  · rename_i rest3 heq
    rw [hdrop] at heq
    injection heq with h1 h2
    rw [h2]
    rw [if_neg (by simpa using hne)]
  · rename_i hx
    exact absurd (hx rest hdrop) (by intro hc; exact hc)

theorem restoreDollars_nul_singleton : restoreDollars ['\x00'] = ['\x00'] := by
  rw [restoreDollars, dif_neg (by decide)]
  show '\x00' :: restoreDollars [] = ['\x00']
  rw [restoreDollars_nil]

instance decEqInterpState : DecidableEq (JStr × Bool × List JStr × List (JStr × JStr)) :=
  instDecidableEqProd

theorem interpGo_c8_ref :
    interpGo [] false [Tok.ref ('A' :: (escapedDollar ++ ['B']))]
      [] false [] [] =
      .ok ([], true, [('A' :: (escapedDollar ++ ['B']))], []) := by decide

theorem preprocessDollars_c8 :
    preprocessDollars ('$' :: '{' :: 'A' :: '$' :: '$' :: 'B' :: '}' :: []) =
      '$' :: '{' :: (('A' :: (escapedDollar ++ ['B'])) ++ ('}' :: [])) := by decide

/-- C8 counterexample: unrestricted, `$$` is not always collapsed to a
literal `$`.  Inside a brace reference the pre-pass placeholder becomes
part of the matched expression: plain-ASCII `$\x7bA$$B\x7d` is scanned as
one variable reference whose name contains the placeholder, lookup fails,
and the result is the empty string — no literal `$` survives.  And input
text that collides with the NUL-delimited placeholder is itself restored:
`\x00ESCAPED_DOLLAR$$` resolves to `$ESCAPED_DOLLAR\x00` instead of
keeping its leading text and a collapsed trailing `$`. -/
theorem claim_C8_double_dollar_counterexample :
    (interpolateString [] false
        ('$' :: '{' :: 'A' :: '$' :: '$' :: 'B' :: '}' :: []) =
      .ok ⟨[], true, [('A' :: (escapedDollar ++ ['B']))], []⟩) ∧
    (interpolateString [] false
        (('\x00' :: ("ESCAPED_DOLLAR").toList) ++ ['$', '$']) =
      .ok ⟨'$' :: (("ESCAPED_DOLLAR").toList ++ ['\x00']), false, [], []⟩) ∧
    ('$' :: (("ESCAPED_DOLLAR").toList ++ ['\x00']) ≠
      ('\x00' :: ("ESCAPED_DOLLAR").toList) ++ ['$']) := by
  refine ⟨?_, ?_, by decide⟩
  · have hscan : scanVars none
        ('$' :: '{' :: (('A' :: (escapedDollar ++ ['B'])) ++ ('}' :: []))) =
        [Tok.ref ('A' :: (escapedDollar ++ ['B']))] := by
      rw [scanVars_ref none ('A' :: (escapedDollar ++ ['B'])) []
        (by decide) (by decide) (by decide), scanVars_nil]
    unfold interpolateString
    rw [preprocessDollars_c8, hscan, interpGo_c8_ref]
    show Except.ok (⟨restoreDollars [], true,
      [('A' :: (escapedDollar ++ ['B']))], []⟩ : InterpOut) =
      Except.ok (⟨[], true, [('A' :: (escapedDollar ++ ['B']))], []⟩ : InterpOut)
    rw [restoreDollars_nil]
  · have hpp2 : preprocessDollars (('\x00' :: ("ESCAPED_DOLLAR").toList) ++ ['$', '$']) =
        ('\x00' :: ("ESCAPED_DOLLAR").toList) ++ escapedDollar := by
      rw [preprocessDollars_free (by decide), preprocessDollars_dollars,
        show preprocessDollars [] = ([] : JStr) from rfl, List.append_nil]
    rw [interpolateString_alllits [] false _ _ hpp2 (by decide)]
    rw [show ('\x00' :: ("ESCAPED_DOLLAR").toList) ++ escapedDollar =
      escapedDollar ++ (("ESCAPED_DOLLAR").toList ++ ['\x00']) from by decide]
    rw [restoreDollars_placeholder, restoreDollars_free (by decide),
      restoreDollars_nul_singleton]
